import Mathlib

/-!
Verification development for the `zk` package of outbrain/zookeepercli
(`src/zk/zk.go`): a thin command layer over a ZooKeeper-style coordination
service.

Embedding conventions:
* Go strings that the code splits and concatenates (ACL specifications,
  permission strings) are embedded as `GoStr := List Char`; Go's
  `strings.Split` on a one-character separator is `List.splitOn`, and
  `strings.Split(s, "")` is the rune list itself.
* ZooKeeper node paths are embedded as lists of path components
  (`NodePath := List String`); `gopath.Dir` on a clean absolute path drops the
  last component and `gopath.Join`/`path + "/" + child` appends one.
* The remote ZooKeeper ensemble is embedded as an explicit store: a list of
  (path, data) nodes with the root implicit.  The remote calls `Create`,
  `Children`, `Delete`, `Exists` are given their ZooKeeper semantics on this
  store, and each wrapper operation threads the store explicitly.
* Go's `(value, err)` returns are pairs with an `Option GoErr` component, or
  `Except` where the value is unused on error; a Go panic (out-of-range
  index) is `Option.none` at the outer level.
* `int32` permission masks are embedded as `Int` (bit operations via
  `Int.lor`/`Int.land`; every mask the code builds from permission
  characters lies in [0, 31], so no wrap-around arises).
-/

/-- Go string, as its list of runes. -/
abbrev GoStr := List Char

/-- Go error value (`errors.New` message); `none` is Go's `nil` error. -/
abbrev GoErr := String

/-- ZooKeeper permission bit `zk.PermRead`. -/
def PermRead : Int := 1
/-- ZooKeeper permission bit `zk.PermWrite`. -/
def PermWrite : Int := 2
/-- ZooKeeper permission bit `zk.PermCreate`. -/
def PermCreate : Int := 4
/-- ZooKeeper permission bit `zk.PermDelete`. -/
def PermDelete : Int := 8
/-- ZooKeeper permission bit `zk.PermAdmin`. -/
def PermAdmin : Int := 16
/-- ZooKeeper permission mask `zk.PermAll` = all five bits. -/
def PermAll : Int := 31

/-- ZooKeeper ACL entry `zk.ACL`: permission mask, scheme, identity. -/
structure ACL where
  perms : Int
  scheme : GoStr
  id : GoStr
deriving DecidableEq, Repr, Inhabited

/-- Entry `zk.WorldACL(perms)` of the wrapped client library: a single entry
for scheme `world`, identity `anyone`. -/
def WorldACL (perms : Int) : List ACL :=
  [⟨perms, "world".toList, "anyone".toList⟩]

/-- Placeholder for `base64(sha1(user:password))` computed by the wrapped
client library's `zk.DigestACL`.  The digest bytes are an external detail no
claim depends on; the model keeps an unspecified but fixed function of the
credential pair. -/
def digestHashModel (user pwd : GoStr) : GoStr := user ++ ':' :: pwd

/-- Entry list built by the wrapped client library's
`zk.DigestACL(perms, user, password)`: one entry for scheme `digest` whose
identity is `user:<digest>`. -/
def DigestACL (perms : Int) (user pwd : GoStr) : List ACL :=
  [⟨perms, "digest".toList, user ++ ':' :: digestHashModel user pwd⟩]

/-- Decimal digit string (at least one digit). -/
def decDigits (s : GoStr) : Bool := !s.isEmpty && s.all (·.isDigit)

/-- Strips one leading `+` or `-`. -/
def stripSign : GoStr → GoStr
  | '+' :: t => t
  | '-' :: t => t
  | s => s

/-- Sign of a leading `+`/`-` (1 or -1). -/
def signOf : GoStr → Int
  | '-' :: _ => -1
  | _ => 1

/-- Lower-cases every rune. -/
def lowerStr (s : GoStr) : GoStr := s.map Char.toLower

/-- Decimal mantissa: `digits`, `digits.digits?` or `.digits`. -/
def decMantissa (s : GoStr) : Bool :=
  let intPart := s.takeWhile (·.isDigit)
  match s.dropWhile (·.isDigit) with
  | [] => !intPart.isEmpty
  | '.' :: frac => (!intPart.isEmpty || !frac.isEmpty) && frac.all (·.isDigit)
  | _ => false

/-- Splits at the first exponent marker `e`/`E`. -/
def splitExpMark (s : GoStr) : GoStr × Option GoStr :=
  match s.dropWhile (fun c => c ≠ 'e' && c ≠ 'E') with
  | [] => (s, none)
  | _ :: ex => (s.takeWhile (fun c => c ≠ 'e' && c ≠ 'E'), some ex)

/-- Success domain of `strconv.ParseFloat(s, 64)` of the Go standard library
(an external collaborator of this code): optional sign with a decimal
mantissa and optional exponent, or the special `inf`/`infinity` (optionally
signed) and `nan` forms.  Go's hex-float and digit-underscore forms and its
out-of-range error are not modelled; every permission string any claim
exercises is made only of permission letters, where this model and Go agree
that parsing fails. -/
def goFloatSyntax (s : GoStr) : Bool :=
  lowerStr s = "nan".toList ||
  (let t := stripSign s
   lowerStr t = "inf".toList || lowerStr t = "infinity".toList ||
   (let (body, ex) := splitExpMark t
    decMantissa body &&
      match ex with
      | none => true
      | some e => decDigits (stripSign e)))

/-- Value of a digit list as a natural number. -/
def digitsVal (s : GoStr) : Nat := s.foldl (fun n c => 10 * n + (c.toNat - 48)) 0

/-- Truncation toward zero of `num / den` (`den > 0`). -/
def truncDiv (num : Int) (den : Nat) : Int :=
  if num ≥ 0 then num / (den : Int) else -((-num) / (den : Int))

/-- Value `int32(math.Min(x, 31))` for a string accepted by the
`strconv.ParseFloat` model: decimal values are evaluated exactly (float64
rounding is not modelled), conversion of `NaN` and of values below `int32`
range follows the amd64 behaviour (`math.MinInt32`).  No claim exercises
this numeric branch. -/
def numericPermsValue (s : GoStr) : Int :=
  if lowerStr s = "nan".toList then -2147483648
  else
    let sgn := signOf s
    let t := stripSign s
    if lowerStr t = "inf".toList || lowerStr t = "infinity".toList then
      if sgn = 1 then 31 else -2147483648
    else
      let (body, ex) := splitExpMark t
      let intPart := body.takeWhile (·.isDigit)
      let frac := match body.dropWhile (·.isDigit) with
        | '.' :: f => f
        | _ => []
      let expVal : Int := match ex with
        | none => 0
        | some e => signOf e * (digitsVal (stripSign e) : Int)
      let mant : Nat := digitsVal (intPart ++ frac)
      let e' : Int := expVal - frac.length
      let num : Int := sgn * (mant : Int) * 10 ^ (max e' 0).toNat
      let den : Nat := 10 ^ (max (-e') 0).toNat
      if num ≥ 31 * (den : Int) then 31
      else
        let v := truncDiv num den
        if v < -2147483648 then -2147483648 else v

/-- Permission bit of one permission character, per the `switch` in
`parsePermsString` (`src/zk/zk.go:335-354`); `none` is the `default` case. -/
def permBit (c : Char) : Option Int :=
  if c = 'r' then some PermRead
  else if c = 'w' then some PermWrite
  else if c = 'c' then some PermCreate
  else if c = 'd' then some PermDelete
  else if c = 'a' then some PermAdmin
  else none

/-- Character loop of `parsePermsString`: accumulates bits with `|=`, sets
the error and breaks at the first character that is no permission letter. -/
def permsLoop : GoStr → Int → Int × Option GoErr
  | [], acc => (acc, none)
  | c :: rest, acc =>
    match permBit c with
    | some b => permsLoop rest (Int.lor acc b)
    | none => (acc, some "invalid ACL string specified")

/-- Embedding of `parsePermsString` (`src/zk/zk.go:331-362`): a string in
`strconv.ParseFloat`'s domain yields `int32(math.Min(x, 31))`; otherwise the
runes are scanned as permission letters. -/
def parsePermsString (permstr : GoStr) : Int × Option GoErr :=
  if goFloatSyntax permstr then (numericPermsValue permstr, none)
  else permsLoop permstr 0

/-- Permission characters written by `aclsToString` for one mask: `c`, `d`,
`r`, `w`, `a` in that order (`src/zk/zk.go:130-144`). -/
def permsChars (perms : Int) : GoStr :=
  (if Int.land perms PermCreate ≠ 0 then ['c'] else []) ++
  (if Int.land perms PermDelete ≠ 0 then ['d'] else []) ++
  (if Int.land perms PermRead ≠ 0 then ['r'] else []) ++
  (if Int.land perms PermWrite ≠ 0 then ['w'] else []) ++
  (if Int.land perms PermAdmin ≠ 0 then ['a'] else [])

/-- Embedding of `aclsToString` (`src/zk/zk.go:124-148`): one string
`scheme:id:<permission characters>` per entry. -/
def aclsToString (acls : List ACL) : List GoStr :=
  acls.map (fun a => a.scheme ++ ':' :: (a.id ++ ':' :: permsChars a.perms))

/-- Else-branch of the entry loop of `parseACLString`: the entry is read as
`parts[0]`, `parts[1]`, `parts[2]`, where accessing a missing `parts[1]` or
`parts[2]` is a Go index-out-of-range panic (`none`). -/
def parseACLEntryElse (parts : List GoStr) : Option (GoStr × GoStr × Int × Option GoErr) := do
  let p0 ← parts.get? 0
  let p1 ← parts.get? 1
  let p2 ← parts.get? 2
  some (p0, p1, parsePermsString p2)

/-- One iteration of the entry loop of `parseACLString`
(`src/zk/zk.go:310-327`): splits the entry at `:`; with more than three
parts (at least four) and scheme `digest` the identity is
`parts[1]:parts[2]` and the permissions come from `parts[3]`; otherwise
`parseACLEntryElse` runs. -/
def parseACLEntry (entry : GoStr) : Option (GoStr × GoStr × Int × Option GoErr) :=
  match entry.splitOn ':' with
  | p0 :: p1 :: p2 :: p3 :: restParts =>
    if p0 = "digest".toList then
      some ("digest".toList, p1 ++ ':' :: p2, parsePermsString p3)
    else parseACLEntryElse (p0 :: p1 :: p2 :: p3 :: restParts)
  | parts => parseACLEntryElse parts

/-- Entry loop of `parseACLString`: entries whose permissions parse are
appended; the function-level `err` is overwritten by every entry's
permission parse, so the returned error is the last entry's.  A panic in any
entry aborts the whole call (`none`). -/
def parseACLLoop : List GoStr → List ACL → Option GoErr → Option (List ACL × Option GoErr)
  | [], acc, err => some (acc, err)
  | e :: rest, acc, _ => do
    let (scheme, id, perms, err') ← parseACLEntry e
    parseACLLoop rest (if err' = none then acc ++ [⟨perms, scheme, id⟩] else acc) err'

/-- Embedding of `parseACLString` (`src/zk/zk.go:308-329`): splits the
specification at `,` and runs the entry loop; `none` is a panic. -/
def parseACLString (aclstr : GoStr) : Option (List ACL × Option GoErr) :=
  parseACLLoop (aclstr.splitOn ',') [] none

/-- Success domain of `strconv.ParseInt(s, 10, 32)` of the Go standard
library: optional sign, decimal digits, value within `int32` range (the
value reported alongside a range error is never used by this code). -/
def goParseInt32 (s : GoStr) : Option Int :=
  let t := stripSign s
  if decDigits t then
    let v := signOf s * (digitsVal t : Int)
    if -2147483648 ≤ v ∧ v ≤ 2147483647 then some v else none
  else none

/-- Loop of `BuildACL` (`src/zk/zk.go:60-67`): parses each comma-separated
element as a decimal `int32` and breaks at the first element that fails,
appending `zk.DigestACL(acl, user, pwd)[0]` for the ones before it. -/
def buildACLLoop (user pwd : GoStr) : List GoStr → List ACL
  | [] => []
  | e :: rest =>
    match goParseInt32 e with
    | none => []
    | some n => (DigestACL n user pwd).headI :: buildACLLoop user pwd rest

/-- Embedding of `BuildACL` (`src/zk/zk.go:58-69`): the loop's `err` from
`strconv.ParseInt` is declared with `:=` inside the loop body, shadowing the
named return value `err`, which therefore stays `nil` on every path. -/
def BuildACL (user pwd aclsSpec : GoStr) : List ACL × Option GoErr :=
  (buildACLLoop user pwd (aclsSpec.splitOn ','), none)

/-! ### The remote store

The coordination service's namespace, as seen by the single-client programs
this layer builds: a finite set of nodes, each a path with a data payload.
The root exists implicitly and is never stored. -/

/-- Node path: list of path components. -/
abbrev NodePath := List String

/-- The remote ZooKeeper namespace: nodes as (path, data) pairs. -/
structure Store where
  nodes : List (NodePath × String)
deriving DecidableEq, Repr

/-- Paths of the stored nodes. -/
def pathsOf (s : Store) : List NodePath := s.nodes.map Prod.fst

/-- Remote existence: the root always exists; other paths when stored. -/
def existsNode (s : Store) (p : NodePath) : Bool :=
  p.isEmpty || s.nodes.any (fun nd => nd.1 == p)

/-- Errors of the wrapped client library's remote calls. -/
inductive ZkErr
  | noNode
  | nodeExists
  | notEmpty
  | badArguments
deriving DecidableEq, Repr

/-- Remote `conn.Create(path, data, flags, acl)`: fails on an existing node
or a missing parent, otherwise adds the node.  Per-node ACLs and flags are
not tracked by the store model (no claim reads them back). -/
def zkCreate (s : Store) (p : NodePath) (d : String) : Except ZkErr Store :=
  if existsNode s p then .error .nodeExists
  else if existsNode s p.dropLast then .ok ⟨(p, d) :: s.nodes⟩
  else .error .noNode

/-- Names of the immediate children of `p` (the order the remote reports
them in is unspecified; this model reads them off the node list). -/
def zkChildrenNames (s : Store) (p : NodePath) : List String :=
  s.nodes.filterMap (fun nd => if nd.1.dropLast == p then nd.1.getLast? else none)

/-- Remote `conn.Children(path)`: errors when the path does not exist. -/
def zkChildren (s : Store) (p : NodePath) : Except ZkErr (List String) :=
  if existsNode s p then .ok (zkChildrenNames s p) else .error .noNode

/-- Remote `conn.Delete(path, -1)`: errors when the path does not exist or
still has children; deleting the root is refused. -/
def zkDelete (s : Store) (p : NodePath) : Except ZkErr Store :=
  if p.isEmpty then .error .badArguments
  else if !existsNode s p then .error .noNode
  else if !(zkChildrenNames s p).isEmpty then .error .notEmpty
  else .ok ⟨s.nodes.filter (fun nd => nd.1 != p)⟩

/-- Remote `conn.Set(path, data, -1)`: errors when the path does not
exist. -/
def zkSet (s : Store) (p : NodePath) (d : String) : Except ZkErr Store :=
  if existsNode s p then .ok ⟨s.nodes.map (fun nd => if nd.1 == p then (nd.1, d) else nd)⟩
  else .error .noNode

/-- Data stored at a path. -/
def lookupData (s : Store) (p : NodePath) : Option String :=
  (s.nodes.find? (fun nd => nd.1 == p)).map Prod.snd

/-- Well-formed remote namespace: node paths are distinct, never the root,
and parent-closed (each node's parent is the root or stored). -/
def WFStore (s : Store) : Prop :=
  (pathsOf s).Nodup ∧
    ∀ q ∈ pathsOf s, q ≠ [] ∧ (q.dropLast = [] ∨ q.dropLast ∈ pathsOf s)

instance : DecidablePred WFStore := fun s => by
  unfold WFStore; infer_instance

/-- Go's `sort.Sort(sort.StringSlice(children))`, ascending. -/
def sortStrings (l : List String) : List String :=
  l.mergeSort (fun a b => decide (a ≤ b))

/-! ### Termination infrastructure

`childrenRecursiveInternal` recurses on child paths, which grow; it
terminates because each child owns strictly fewer descendants than its
parent.  The lemmas here feed the `decreasing_by` proofs below. -/

/-- Boolean prefix test agrees with `List.IsPrefix`. -/
theorem isPrefixOf_eq_true_iff {α} [BEq α] [LawfulBEq α] {l₁ l₂ : List α} :
    l₁.isPrefixOf l₂ = true ↔ l₁ <+: l₂ :=
  List.isPrefixOf_iff_prefix

/-- Count of nodes strictly below `p`. -/
def descCount (s : Store) (p : NodePath) : Nat :=
  (pathsOf s).countP (fun q => p.isPrefixOf q && !(q.isPrefixOf p))

/-- Strictly fewer elements satisfy `p2` than `p1` when `p2` implies `p1`
and some listed element separates them. -/
theorem countP_lt_of_sep {α} {l : List α} {p1 p2 : α → Bool} (e : α) (he : e ∈ l)
    (h1 : p1 e = true) (h2 : p2 e = false) (himp : ∀ x, p2 x = true → p1 x = true) :
    l.countP p2 < l.countP p1 := by
  induction l with
  | nil => cases he
  | cons a t ih =>
    rw [List.countP_cons, List.countP_cons]
    rcases List.mem_cons.mp he with rfl | hat
    · rw [h1, h2]
      simpa using Nat.lt_succ_of_le (List.countP_mono_left (fun x _ => himp x))
    · rcases hpa : p2 a with _ | _
      · simpa [hpa] using Nat.lt_of_lt_of_le (ih hat) (Nat.le_add_right _ _)
      · rw [himp a hpa]
        simpa using ih hat

/-- Membership in the reported child names. -/
theorem zkChildrenNames_mem (s : Store) (p : NodePath) (c : String) :
    c ∈ zkChildrenNames s p ↔ p ++ [c] ∈ pathsOf s := by
  unfold zkChildrenNames pathsOf
  rw [List.mem_filterMap, List.mem_map]
  constructor
  · rintro ⟨nd, hnd, hf⟩
    refine ⟨nd, hnd, ?_⟩
    split at hf
    · next heq =>
      have hdrop : nd.1.dropLast = p := by simpa using heq
      obtain ⟨ys, hys⟩ := List.getLast?_eq_some_iff.mp hf
      have : ys = p := by rw [hys, List.dropLast_concat] at hdrop; exact hdrop
      rw [hys, this]
    · simp at hf
  · rintro ⟨nd, hnd, hp⟩
    refine ⟨nd, hnd, ?_⟩
    rw [hp]
    simp

/-- Sorting keeps membership. -/
theorem mem_sortStrings (l : List String) (c : String) :
    c ∈ sortStrings l ↔ c ∈ l :=
  (List.mergeSort_perm l _).mem_iff

/-- Reading the successful case of `zkChildren`. -/
theorem zkChildren_ok {s : Store} {p : NodePath} {l : List String}
    (h : zkChildren s p = .ok l) : l = zkChildrenNames s p := by
  unfold zkChildren at h
  split at h
  · exact (Except.ok.injEq _ _ ▸ h).symm
  · cases h

/-- Each stored child has strictly fewer strict descendants than its
parent. -/
theorem descCount_child_lt {s : Store} {p : NodePath} {c : String}
    (h : p ++ [c] ∈ pathsOf s) : descCount s (p ++ [c]) < descCount s p := by
  unfold descCount
  refine countP_lt_of_sep (p ++ [c]) h ?_ ?_ ?_
  · have h1 : p.isPrefixOf (p ++ [c]) = true :=
      isPrefixOf_eq_true_iff.mpr (List.prefix_append p [c])
    have h2 : (p ++ [c]).isPrefixOf p = false := by
      rcases hb : (p ++ [c]).isPrefixOf p with _ | _
      · rfl
      · have := (isPrefixOf_eq_true_iff.mp hb).length_le
        simp at this
    rw [h1, h2]
    rfl
  · have h1 : (p ++ [c]).isPrefixOf (p ++ [c]) = true :=
      isPrefixOf_eq_true_iff.mpr List.prefix_rfl
    rw [h1]
    simp
  · intro x hx
    simp only [Bool.and_eq_true] at hx
    obtain ⟨hx1, hx2⟩ := hx
    have hpc : (p ++ [c]) <+: x := isPrefixOf_eq_true_iff.mp hx1
    have hpx : p <+: x := (List.prefix_append p [c]).trans hpc
    have hxp : x.isPrefixOf p = false := by
      rcases hb : x.isPrefixOf p with _ | _
      · rfl
      · have hxp' : x <+: p := isPrefixOf_eq_true_iff.mp hb
        have := (hpc.trans hxp').length_le
        simp at this
    rw [isPrefixOf_eq_true_iff.mpr hpx, hxp]
    rfl

/-- Membership witness for the sorted children fed to the recursive walk
(it only serves the termination argument of the walk). -/
theorem childArgMem (s : Store) (p : NodePath) :
    ∀ c ∈ sortStrings (zkChildrenNames s p), p ++ [c] ∈ pathsOf s :=
  fun c hc => (zkChildrenNames_mem s p c).mp ((mem_sortStrings _ c).mp hc)

mutual

/-- Embedding of `childrenRecursiveInternal` (`src/zk/zk.go:163-181`): lists
the node's children — the remote call `zkChildren` is inlined: an error (the
path does not exist) aborts the walk, otherwise the returned names are
`zkChildrenNames s p` — sorts them, and walks them with
`childrenRecursiveLoop`.  The partial list Go returns alongside an error is
never read by any caller that sees a non-nil error, so only the error is
kept. -/
def childrenRecursiveInternal (s : Store) (p inc : NodePath) :
    Except ZkErr (List NodePath) :=
  if existsNode s p = true then
    childrenRecursiveLoop s p inc (sortStrings (zkChildrenNames s p))
      (childArgMem s p)
  else .error .noNode
termination_by (descCount s p, 1, 0)
decreasing_by
  exact Prod.Lex.right _ (Prod.Lex.left _ _ (by omega))

/-- Child loop of `childrenRecursiveInternal`: for each child (in sorted
order) the child's incremental path followed by the child's own recursive
listing.  The membership argument only serves termination. -/
def childrenRecursiveLoop (s : Store) (p inc : NodePath) :
    (cs : List String) → (∀ c ∈ cs, p ++ [c] ∈ pathsOf s) →
      Except ZkErr (List NodePath)
  | [], _ => .ok []
  | c :: rest, hcs => do
    let sub ← childrenRecursiveInternal s (p ++ [c]) (inc ++ [c])
    let tail ←
      childrenRecursiveLoop s p inc rest (fun x hx => hcs x (List.mem_cons_of_mem _ hx))
    .ok ((inc ++ [c]) :: (sub ++ tail))
termination_by cs _ => (descCount s p, 0, cs.length)
decreasing_by
  · exact Prod.Lex.left _ _ (descCount_child_lt (hcs c (List.mem_cons_self c rest)))
  · exact Prod.Lex.right _ (Prod.Lex.right _ (by simp only [List.length_cons]; omega))

end

/-- Data written into auto-created parent nodes (`src/zk/zk.go:210`). -/
def autoGenData : String := "zookeepercli auto-generated"

/-- Embedding of `createInternal` (`src/zk/zk.go:198-216`): the root is
returned untouched; otherwise the node is created; on error with `force`
the parent chain is first created recursively (with `autoGenData`), after
which the create of `path` is attempted exactly once more and that second
attempt's outcome is returned.  The `acl` argument is forwarded to the
remote call; the store model does not track per-node ACLs. -/
def createInternal (s : Store) (p : NodePath) (data : String) (acl : List ACL)
    (force : Bool) : Store × Except ZkErr NodePath :=
  if hp : p = [] then (s, .ok [])
  else
    match zkCreate s p data with
    | .ok s1 => (s1, .ok p)
    | .error e =>
      if force then
        let r := createInternal s p.dropLast autoGenData acl force
        match zkCreate r.1 p data with
        | .ok s2 => (s2, .ok p)
        | .error e2 => (r.1, .error e2)
      else (s, .error e)
termination_by p.length
decreasing_by
  have : p.length ≠ 0 := fun h0 => hp (List.length_eq_zero.mp h0)
  simp only [List.length_dropLast]
  omega

/-! ### Package-level state and the connection factory

`src/zk/zk.go:34-41` declares package-level variables: the server list, the
authentication scheme and expression, the create flags and the default ACL
(`zk.WorldACL(zk.PermAll)`).  They are the only client-side state. -/

/-- Package-level variables of the `zk` package. -/
structure GlobalState where
  servers : List GoStr
  authScheme : GoStr
  authExpression : GoStr
  flagsVar : Int
  acl : List ACL
deriving DecidableEq, Repr

/-- Initial values of the package-level variables (`src/zk/zk.go:34-41`). -/
def initialGlobal : GlobalState :=
  { servers := [], authScheme := [], authExpression := [], flagsVar := 0,
    acl := WorldACL PermAll }

/-- Embedding of `SetServers` (`src/zk/zk.go:47-49`). -/
def SetServers (g : GlobalState) (serversArray : List GoStr) : GlobalState :=
  { g with servers := serversArray }

/-- Embedding of `SetAuth` (`src/zk/zk.go:51-55`). -/
def SetAuth (g : GlobalState) (scheme : GoStr) (auth : GoStr) : GlobalState :=
  { g with authScheme := scheme, authExpression := auth }

/-- Established connection: the servers dialled and the credential added
with `AddAuth`, if any. -/
structure Conn where
  servers : List GoStr
  auth : Option (GoStr × GoStr)
deriving DecidableEq, Repr

/-- Embedding of `connect` (`src/zk/zk.go:78-87`): dials the configured
server list and, when a non-empty auth scheme is set, adds the credential.
Dialling is modelled as always succeeding (no claim concerns a failed
dial). -/
def connect (g : GlobalState) : Conn :=
  { servers := g.servers,
    auth :=
      if g.authScheme ≠ [] then some (g.authScheme, g.authExpression) else none }

/-- Errors surfaced by the wrapper operations: a remote error or an ACL
specification parse error. -/
inductive OpErr
  | zk (e : ZkErr)
  | parse (msg : GoErr)
deriving DecidableEq, Repr

/-- Embedding of `Exists` (`src/zk/zk.go:90-99`). -/
def ExistsOp (s : Store) (p : NodePath) : Bool × Option ZkErr :=
  (existsNode s p, none)

/-- Embedding of `Get` (`src/zk/zk.go:102-111`). -/
def GetOp (s : Store) (p : NodePath) : Except ZkErr String :=
  match lookupData s p with
  | some d => .ok d
  | none => .error .noNode

/-- Embedding of `Children` (`src/zk/zk.go:151-160`). -/
def ChildrenOp (s : Store) (p : NodePath) : Except ZkErr (List String) :=
  zkChildren s p

/-- Embedding of `ChildrenRecursive` (`src/zk/zk.go:186-195`): the walk
starts with an empty incremental path, so every element of the result is a
path relative to `p`. -/
def ChildrenRecursive (s : Store) (p : NodePath) : Except ZkErr (List NodePath) :=
  childrenRecursiveInternal s p []

/-- Embedding of `Create` (`src/zk/zk.go:242-257`).  A non-empty `aclstr` is
parsed with `parseACLString` and — the parse assigning the package-level
`acl` variable, not a local — the default ACL is overwritten before the
parse error is even examined.  Returns the updated globals, the updated
store and the result; `none` is a panic escaping `parseACLString`. -/
def Create (g : GlobalState) (s : Store) (p : NodePath) (data : String)
    (aclstr : GoStr) (force : Bool) :
    Option (GlobalState × Store × Except OpErr NodePath) :=
  if aclstr.length > 0 then
    match parseACLString aclstr with
    | none => none
    | some (parsed, err) =>
      let g' := { g with acl := parsed }
      match err with
      | some m => some (g', s, .error (.parse m))
      | none =>
        let r := createInternal s p data g'.acl force
        some (g', r.1, r.2.mapError .zk)
  else
    let r := createInternal s p data g.acl force
    some (g, r.1, r.2.mapError .zk)

/-- Embedding of `Set` (`src/zk/zk.go:270-278`). -/
def SetOp (s : Store) (p : NodePath) (data : String) : Store × Option ZkErr :=
  match zkSet s p data with
  | .ok s' => (s', none)
  | .error e => (s, some e)

/-- Embedding of `SetACL` (`src/zk/zk.go:281-306`): parses the ACL string
into a local variable (the package-level default is untouched); with
`force` and a missing path the node is created with `createInternal`,
otherwise the ACL is set remotely.  `none` is a panic escaping
`parseACLString`. -/
def SetACL (g : GlobalState) (s : Store) (p : NodePath) (aclstr : GoStr)
    (force : Bool) : Option (Store × Except OpErr NodePath) :=
  match parseACLString aclstr with
  | none => none
  | some (acl, err) =>
    match err with
    | some m => some (s, .error (.parse m))
    | none =>
      if force && !existsNode s p then
        let r := createInternal s p "" acl force
        some (r.1, r.2.mapError .zk)
      else if existsNode s p then some (s, .ok p)
      else some (s, .error (.zk .noNode))

/-- Embedding of `GetACL` (`src/zk/zk.go:113-122`): the remote entries of
the node rendered by `aclsToString`.  The store model does not track
per-node ACLs, so the remote entry list is a parameter: the claims about
`GetACL`'s output concern `aclsToString` itself. -/
def GetACLOp (s : Store) (p : NodePath) (remoteEntries : List ACL) :
    Except ZkErr (List GoStr) :=
  if existsNode s p then .ok (aclsToString remoteEntries) else .error .noNode

/-- Embedding of `Delete` (`src/zk/zk.go:365-373`). -/
def Delete (s : Store) (p : NodePath) : Store × Option ZkErr :=
  match zkDelete s p with
  | .ok s' => (s', none)
  | .error e => (s, some e)

/-- Deletion loop of `DeleteRecursive` (`src/zk/zk.go:382-387`): calls
`Delete` on each listed path in order; an error is `log.Fatale`, which
stops the process, so nothing after it runs. -/
def deleteAll (s : Store) : List NodePath → Store × Option ZkErr
  | [] => (s, none)
  | q :: rest =>
    match zkDelete s q with
    | .ok s' => deleteAll s' rest
    | .error e => (s, some e)

/-- Embedding of `DeleteRecursive` (`src/zk/zk.go:376-390`): enumerates the
descendants recursively, deletes them from the last listed to the first
(each prefixed with `path + "/"`), then deletes the path itself.  An
enumeration error is `log.Fatale` (process stops). -/
def DeleteRecursive (s : Store) (p : NodePath) : Store × Option ZkErr :=
  match ChildrenRecursive s p with
  | .error e => (s, some e)
  | .ok result => deleteAll s (result.reverse.map (fun r => p ++ r) ++ [p])

/-- Sequence of paths `DeleteRecursive` passes to `Delete`, in call order
(empty when the initial enumeration already stops the process). -/
def deleteSeq (s : Store) (p : NodePath) : List NodePath :=
  match ChildrenRecursive s p with
  | .error _ => []
  | .ok result => result.reverse.map (fun r => p ++ r) ++ [p]

/-! ### Connection accounting

Every wrapper operation calls `connect`, runs its remote calls over that
connection and closes it with `defer connection.Close()`.  The traces below
record, per operation, the connection and remote-call events in order,
counting the remote calls with functions that mirror the recursions. -/

/-- Connection lifecycle and remote-call events. -/
inductive ZkEvent
  | connOpen
  | connClose
  | remote
deriving DecidableEq, Repr

/-- Trace of one wrapper operation: open, `n` remote calls, close. -/
def opTrace (n : Nat) : List ZkEvent :=
  .connOpen :: (List.replicate n .remote ++ [.connClose])

/-- Count of `conn.Create` calls made by `createInternal`. -/
def createRemotes (s : Store) (p : NodePath) (data : String) (force : Bool) : Nat :=
  if p = [] then 0
  else
    match zkCreate s p data with
    | .ok _ => 1
    | .error _ =>
      if force then
        1 + createRemotes s p.dropLast autoGenData force + 1
      else 1
termination_by p.length
decreasing_by
  rename_i hp _
  have : p.length ≠ 0 := fun h0 => hp (List.length_eq_zero.mp h0)
  simp only [List.length_dropLast]
  omega

mutual

/-- Count of `conn.Children` calls made by `childrenRecursiveInternal` (the
remote call `zkChildren` is inlined as in the walk itself). -/
def childrenRecRemotes (s : Store) (p inc : NodePath) : Nat :=
  if existsNode s p = true then
    1 + childrenRecRemotesLoop s p inc (sortStrings (zkChildrenNames s p))
      (childArgMem s p)
  else 1
termination_by (descCount s p, 1, 0)
decreasing_by
  exact Prod.Lex.right _ (Prod.Lex.left _ _ (by omega))

/-- Count of `conn.Children` calls made by the child loop: a recursive
error stops the loop at the failing child. -/
def childrenRecRemotesLoop (s : Store) (p inc : NodePath) :
    (cs : List String) → (∀ c ∈ cs, p ++ [c] ∈ pathsOf s) → Nat
  | [], _ => 0
  | c :: rest, hcs =>
    childrenRecRemotes s (p ++ [c]) (inc ++ [c]) +
      match childrenRecursiveInternal s (p ++ [c]) (inc ++ [c]) with
      | .error _ => 0
      | .ok _ =>
          childrenRecRemotesLoop s p inc rest
            (fun x hx => hcs x (List.mem_cons_of_mem _ hx))
termination_by cs _ => (descCount s p, 0, cs.length)
decreasing_by
  · exact Prod.Lex.left _ _ (descCount_child_lt (hcs c (List.mem_cons_self c rest)))
  · exact Prod.Lex.right _ (Prod.Lex.right _ (by simp only [List.length_cons]; omega))

end

/-- Trace of `Exists`, `Get`, `GetACL`, `Children`, `Set` and `Delete`: one
connection, one remote call. -/
def traceSingleCall : List ZkEvent := opTrace 1

/-- Trace of `ChildrenRecursive`. -/
def traceChildrenRecursive (s : Store) (p : NodePath) : List ZkEvent :=
  opTrace (childrenRecRemotes s p [])

/-- Trace of `Create`: the ACL-parse steps make no remote call; a parse
panic still unwinds through the deferred close. -/
def traceCreate (s : Store) (p : NodePath) (data : String) (aclstr : GoStr)
    (force : Bool) : List ZkEvent :=
  if aclstr.length > 0 then
    match parseACLString aclstr with
    | none => opTrace 0
    | some (_, some _) => opTrace 0
    | some (_, none) => opTrace (createRemotes s p data force)
  else opTrace (createRemotes s p data force)

/-- Trace of the deletion loop of `DeleteRecursive`: one single-call
`Delete` per listed path until the first error stops the process. -/
def deleteAllTrace (s : Store) : List NodePath → List ZkEvent
  | [] => []
  | q :: rest =>
    traceSingleCall ++
      match zkDelete s q with
      | .ok s' => deleteAllTrace s' rest
      | .error _ => []

/-- Trace of `DeleteRecursive`: the `ChildrenRecursive` connection, then
one `Delete` connection per deleted node and one for the path itself. -/
def traceDeleteRecursive (s : Store) (p : NodePath) : List ZkEvent :=
  traceChildrenRecursive s p ++
    match ChildrenRecursive s p with
    | .error _ => []
    | .ok result => deleteAllTrace s (result.reverse.map (fun r => p ++ r) ++ [p])

/-- Scan of a trace: `true` when connections open only while none is open,
close only while one is, every remote call runs over the open connection,
and the trace ends with no connection open (depth `d` is 0 or 1). -/
def wellNested : List ZkEvent → Nat → Bool
  | [], d => d == 0
  | .connOpen :: r, d => d == 0 && wellNested r 1
  | .connClose :: r, d => d == 1 && wellNested r 0
  | .remote :: r, d => d == 1 && wellNested r d

/-- Number of connections a trace opens. -/
def openCount (t : List ZkEvent) : Nat :=
  t.countP (fun e => e == .connOpen)

/-- Chain of ancestors of `r` missing from `s`, deepest first, each paired
with the data `createInternal` writes into auto-created parents.  With a
parent-closed store this is exactly the set of ancestors the forced create
has to add. -/
def ancChain (s : Store) (r : NodePath) : List (NodePath × String) :=
  if r = [] then []
  else if existsNode s r then []
  else (r, autoGenData) :: ancChain s r.dropLast
termination_by r.length
decreasing_by
  rename_i hr _
  have : r.length ≠ 0 := fun h0 => hr (List.length_eq_zero.mp h0)
  simp only [List.length_dropLast]
  omega

/-- Permission mask predicted by claim C4's wording: the OR of the bits of
all permission letters present anywhere in the string. -/
def permsOfCharsPresent (s : GoStr) : Int :=
  (s.filterMap permBit).foldl Int.lor 0

/-- ACL entries whose `aclsToString` rendering survives `parseACLString`:
the mask uses only the five permission bits, scheme and identity contain no
comma, the scheme contains no colon, and the identity contains a colon only
for the `digest` scheme, at most one. -/
def WFAclEntry (a : ACL) : Prop :=
  0 ≤ a.perms ∧ a.perms ≤ 31 ∧ ':' ∉ a.scheme ∧ ',' ∉ a.scheme ∧ ',' ∉ a.id ∧
    (a.scheme = "digest".toList → a.id.count ':' ≤ 1) ∧
    (a.scheme ≠ "digest".toList → ':' ∉ a.id)

instance : DecidablePred WFAclEntry := fun a => by
  unfold WFAclEntry; infer_instance

/-! ## Helper lemmas and claim theorems -/

/-- A panicking entry anywhere makes the whole entry loop panic. -/
theorem parseACLLoop_none {es : List GoStr} (h : ∃ e ∈ es, parseACLEntry e = none) :
    ∀ acc err, parseACLLoop es acc err = none := by
  induction es with
  | nil => rcases h with ⟨e, he, _⟩; cases he
  | cons e rest ih =>
    intro acc err
    rcases h with ⟨e', he', hpanic⟩
    rcases List.mem_cons.mp he' with rfl | hrest
    · simp [parseACLLoop, hpanic]
    · cases hpe : parseACLEntry e with
      | none => simp [parseACLLoop, hpe]
      | some v =>
        obtain ⟨scheme, id, perms, err'⟩ := v
        simp only [parseACLLoop, hpe, Option.bind_some]
        exact ih ⟨e', hrest, hpanic⟩ _ _

/-- An entry with fewer than two colon-separated parts reads `parts[1]` out
of range. -/
theorem parseACLEntry_none_of_short {e : GoStr}
    (h : (e.splitOn ':').length < 2) : parseACLEntry e = none := by
  unfold parseACLEntry parseACLEntryElse
  rcases hsp : e.splitOn ':' with _ | ⟨x, _ | ⟨y, rest⟩⟩
  · simp
  · simp
  · rw [hsp] at h
    simp only [List.length_cons] at h
    omega

/-- C9: `parseACLString` is not total: an ACL entry with fewer than two
colon-separated parts (for instance the empty string) makes the code read
`parts[1]` out of range — a panic instead of an error — and `SetACL` passes
its ACL string straight into the parse, so an empty specification brings
the panic with it. -/
theorem C9_parseACLString_panic (g : GlobalState) (s : Store) (p : NodePath)
    (force : Bool) (aclstr : GoStr)
    (h : ∃ entry ∈ aclstr.splitOn ',', (entry.splitOn ':').length < 2) :
    parseACLString aclstr = none ∧ SetACL g s p aclstr force = none := by
  have hp : parseACLString aclstr = none := by
    unfold parseACLString
    refine parseACLLoop_none ?_ [] none
    rcases h with ⟨e, he, hl⟩
    exact ⟨e, he, parseACLEntry_none_of_short hl⟩
  refine ⟨hp, ?_⟩
  unfold SetACL
  rw [hp]

/-- C9 witness: the empty ACL specification panics, also through `SetACL`. -/
theorem C9_witness :
    (∃ entry ∈ ([] : GoStr).splitOn ',', (entry.splitOn ':').length < 2) ∧
    (parseACLString ([] : GoStr) = none ∧
      SetACL initialGlobal ⟨[]⟩ ["a"] ([] : GoStr) true = none) :=
  ⟨by decide, C9_parseACLString_panic initialGlobal ⟨[]⟩ ["a"] true [] (by decide)⟩

/-- The loop of `BuildACL` keeps exactly the elements before the first
unparsable one. -/
theorem buildACLLoop_takeWhile (user pwd : GoStr) (es : List GoStr) :
    buildACLLoop user pwd es =
      (es.takeWhile (fun e => (goParseInt32 e).isSome)).filterMap
        (fun e => (goParseInt32 e).map (fun n => (DigestACL n user pwd).headI)) := by
  induction es with
  | nil => rfl
  | cons e rest ih =>
    cases hpe : goParseInt32 e with
    | none => simp [buildACLLoop, hpe, List.takeWhile_cons, List.filterMap]
    | some n => simp [buildACLLoop, hpe, List.takeWhile_cons, ih]

/-- C10: `BuildACL` returns a nil error for every input — the loop declares
its parse error with `:=`, shadowing the named return value `err`, which is
therefore never set — and the permissions built are those of the
comma-separated elements preceding the first one that fails to parse as an
`int32`. -/
theorem C10_BuildACL (user pwd aclsSpec : GoStr) :
    (BuildACL user pwd aclsSpec).2 = none ∧
    (BuildACL user pwd aclsSpec).1 =
      ((aclsSpec.splitOn ',').takeWhile (fun e => (goParseInt32 e).isSome)).filterMap
        (fun e => (goParseInt32 e).map (fun n => (DigestACL n user pwd).headI)) :=
  ⟨rfl, buildACLLoop_takeWhile user pwd _⟩

/-- C8: `connect` dials the configured static server list and adds the
authentication credential exactly when a non-empty auth scheme has been set
via `SetAuth`; with no scheme set the connection carries no credential. -/
theorem C8_connect_auth : ∀ (g : GlobalState) (scheme auth : GoStr),
    (connect g).servers = g.servers ∧
    ((connect g).auth ≠ none ↔ g.authScheme ≠ []) ∧
    (connect (SetAuth g scheme auth)).auth =
      (if scheme ≠ [] then some (scheme, auth) else none) ∧
    (g.authScheme = [] → (connect g).auth = none) := by
  intro g scheme auth
  refine ⟨rfl, ?_, ?_, ?_⟩
  · unfold connect
    split <;> simp_all
  · rfl
  · intro h
    unfold connect
    simp [h]

/-- Character loop of `parsePermsString`: the accumulated mask covers the
permission letters before the first invalid character, and the error is set
exactly when an invalid character exists. -/
theorem permsLoop_spec (s : GoStr) : ∀ acc : Int,
    (permsLoop s acc).1 =
      ((s.takeWhile (fun c => (permBit c).isSome)).filterMap permBit).foldl Int.lor acc ∧
    ((permsLoop s acc).2 = none ↔ ∀ c ∈ s, (permBit c).isSome) := by
  induction s with
  | nil => intro acc; exact ⟨rfl, by simp [permsLoop]⟩
  | cons c rest ih =>
    intro acc
    cases hc : permBit c with
    | none =>
      refine ⟨?_, ?_⟩
      · simp [permsLoop, hc, List.takeWhile_cons]
      · simp only [permsLoop, hc]
        constructor
        · intro h; cases h
        · intro h
          have := h c (List.mem_cons_self c rest)
          rw [hc] at this
          cases this
    | some b =>
      refine ⟨?_, ?_⟩
      · simp [permsLoop, hc, List.takeWhile_cons, (ih (Int.lor acc b)).1]
      · simp only [permsLoop, hc]
        rw [(ih (Int.lor acc b)).2]
        constructor
        · intro h x hx
          rcases List.mem_cons.mp hx with rfl | hr
          · simp [hc]
          · exact h x hr
        · intro h x hx
          exact h x (List.mem_cons_of_mem _ hx)

/-- C4 counterexample: at the non-numeric string `rxw` the code stops at
`x` and returns only the read bit, not the OR of the bits of all permission
letters present, refuting the claim as stated. -/
theorem C4_counterexample :
    goFloatSyntax "rxw".toList = false ∧
    (parsePermsString "rxw".toList).2 ≠ none ∧
    (parsePermsString "rxw".toList).1 = PermRead ∧
    permsOfCharsPresent "rxw".toList = Int.lor PermRead PermWrite ∧
    (parsePermsString "rxw".toList).1 ≠ permsOfCharsPresent "rxw".toList := by
  refine ⟨by decide, by decide, by decide, by decide, by decide⟩

/-- C4 amended: for every non-numeric permission string the returned mask
is the OR of exactly the bits of the permission letters preceding the first
invalid character (hence of all letters present when the string is valid),
and the error is non-nil iff some character lies outside r, w, c, d, a. -/
theorem C4_parsePermsString (s : GoStr) (h : goFloatSyntax s = false) :
    (parsePermsString s).1 =
      permsOfCharsPresent (s.takeWhile (fun c => (permBit c).isSome)) ∧
    ((parsePermsString s).2 ≠ none ↔ ∃ c ∈ s, permBit c = none) := by
  unfold parsePermsString
  rw [h]
  simp only [Bool.false_eq_true, if_false]
  refine ⟨(permsLoop_spec s 0).1, ?_⟩
  constructor
  · intro hne
    by_contra hno
    push_neg at hno
    apply hne
    rw [(permsLoop_spec s 0).2]
    intro c hc
    cases hb : permBit c with
    | none => exact absurd hb (hno c hc)
    | some b => simp
  · rintro ⟨c, hc, hb⟩ hnone
    rw [(permsLoop_spec s 0).2] at hnone
    have := hnone c hc
    rw [hb] at this
    simp at this

/-- C4 witness: the valid non-numeric string `rwa` gets the OR of its three
bits and no error. -/
theorem C4_witness :
    goFloatSyntax "rwa".toList = false ∧
    ((parsePermsString "rwa".toList).1 =
        permsOfCharsPresent ("rwa".toList.takeWhile (fun c => (permBit c).isSome)) ∧
      ((parsePermsString "rwa".toList).2 ≠ none ↔
        ∃ c ∈ "rwa".toList, permBit c = none)) :=
  ⟨by decide, C4_parsePermsString "rwa".toList (by decide)⟩

/-- Create with an empty ACL string: straight pass-through to
`createInternal` with the package-level default ACL, globals untouched. -/
theorem Create_empty_aclstr (g : GlobalState) (s : Store) (p : NodePath)
    (d : String) (force : Bool) :
    Create g s p d [] force =
      some (g, (createInternal s p d g.acl force).1,
        (createInternal s p d g.acl force).2.mapError OpErr.zk) := rfl

/-- Create with a non-empty ACL string whose parse reports an error still
overwrites the package-level `acl` with the partial parse result. -/
theorem Create_parsed_err (g : GlobalState) (s : Store) (p : NodePath) (d : String)
    (force : Bool) (aclstr : GoStr) (parsed : List ACL) (m : GoErr)
    (hne : aclstr ≠ []) (h : parseACLString aclstr = some (parsed, some m)) :
    Create g s p d aclstr force =
      some ({ g with acl := parsed }, s, Except.error (OpErr.parse m)) := by
  unfold Create
  rw [if_pos (by simpa using List.length_pos.mpr hne), h]

/-- Create with a non-empty, successfully parsed ACL string overwrites the
package-level `acl` and passes the parsed entries to `createInternal`. -/
theorem Create_parsed_ok (g : GlobalState) (s : Store) (p : NodePath) (d : String)
    (force : Bool) (aclstr : GoStr) (parsed : List ACL)
    (hne : aclstr ≠ []) (h : parseACLString aclstr = some (parsed, none)) :
    Create g s p d aclstr force =
      some ({ g with acl := parsed }, (createInternal s p d parsed force).1,
        (createInternal s p d parsed force).2.mapError OpErr.zk) := by
  unfold Create
  rw [if_pos (by simpa using List.length_pos.mpr hne), h]

/-- C7 counterexample: a Create call given the ACL string `world:anyone:r`
overwrites the package-level default ACL, and a subsequent Create call made
without an ACL string uses the overwritten default, not the initial
`WorldACL(PermAll)`. -/
theorem C7_counterexample :
    Create initialGlobal ⟨[]⟩ ["a"] "v" "world:anyone:r".toList false =
      some ({ initialGlobal with acl := WorldACL PermRead },
        (createInternal ⟨[]⟩ ["a"] "v" (WorldACL PermRead) false).1,
        (createInternal ⟨[]⟩ ["a"] "v" (WorldACL PermRead) false).2.mapError
          OpErr.zk) ∧
    WorldACL PermRead ≠ initialGlobal.acl ∧
    Create { initialGlobal with acl := WorldACL PermRead } ⟨[]⟩ ["b"] "w" [] true =
      some ({ initialGlobal with acl := WorldACL PermRead },
        (createInternal ⟨[]⟩ ["b"] "w" (WorldACL PermRead) true).1,
        (createInternal ⟨[]⟩ ["b"] "w" (WorldACL PermRead) true).2.mapError
          OpErr.zk) := by
  refine ⟨?_, by decide, ?_⟩
  · exact Create_parsed_ok initialGlobal ⟨[]⟩ ["a"] "v" false "world:anyone:r".toList
      (WorldACL PermRead) (by decide) (by decide)
  · exact Create_empty_aclstr _ ⟨[]⟩ ["b"] "w" true

/-- C7 amended: apart from the server list, the auth credential and the
package-level default ACL variable, no operation retains local state; but a
Create call given a non-empty ACL string overwrites that default-ACL
variable with the parse result (even when the parse reports an error), so
subsequent Create calls made without an ACL string use the last parsed ACL.
Create with an empty ACL string and the setters leave the default ACL
unchanged; `SetACL` parses into a local variable and touches no global. -/
theorem C7_global_acl :
    (∀ g s p d force, Create g s p d ([] : GoStr) force =
      some (g, (createInternal s p d g.acl force).1,
        (createInternal s p d g.acl force).2.mapError OpErr.zk)) ∧
    (∀ g s p d force aclstr parsed err, aclstr ≠ [] →
      parseACLString aclstr = some (parsed, err) →
      ∃ rest, Create g s p d aclstr force = some ({ g with acl := parsed }, rest)) ∧
    (∀ g serversArray, (SetServers g serversArray).acl = g.acl) ∧
    (∀ g scheme auth, (SetAuth g scheme auth).acl = g.acl) := by
  refine ⟨fun g s p d force => Create_empty_aclstr g s p d force, ?_, fun _ _ => rfl,
    fun _ _ _ => rfl⟩
  intro g s p d force aclstr parsed err hne h
  cases err with
  | none => exact ⟨_, Create_parsed_ok g s p d force aclstr parsed hne h⟩
  | some m => exact ⟨_, Create_parsed_err g s p d force aclstr parsed m hne h⟩

/-- Existence unfolds to root-or-stored. -/
theorem existsNode_iff {s : Store} {p : NodePath} :
    existsNode s p = true ↔ p = [] ∨ p ∈ pathsOf s := by
  unfold existsNode pathsOf
  rw [Bool.or_eq_true, List.any_eq_true]
  constructor
  · rintro (h | ⟨nd, hnd, hb⟩)
    · exact Or.inl (by simpa using h)
    · exact Or.inr (List.mem_map.mpr ⟨nd, hnd, by simpa using hb⟩)
  · rintro (rfl | h)
    · exact Or.inl rfl
    · rcases List.mem_map.mp h with ⟨nd, hnd, rfl⟩
      exact Or.inr ⟨nd, hnd, by simp⟩

/-- The drop of the last component is a prefix. -/
theorem dropLast_isPref (r : NodePath) : r.dropLast <+: r := by
  cases hr : r.getLast? with
  | none => simp [List.getLast?_eq_none_iff.mp hr]
  | some a =>
    obtain ⟨ys, rfl⟩ := List.getLast?_eq_some_iff.mp hr
    rw [List.dropLast_concat]
    exact ⟨[a], rfl⟩

/-- Parent-closure extends to all non-empty prefixes of a stored path. -/
theorem pathsClosed {s : Store} (hwf : WFStore s) :
    ∀ n t q, t.length ≤ n → q ≠ [] → q ++ t ∈ pathsOf s → q ∈ pathsOf s := by
  intro n
  induction n with
  | zero =>
    intro t q hlen hq h
    have : t = [] := List.eq_nil_of_length_eq_zero (by omega)
    simpa [this] using h
  | succ n ih =>
    intro t q hlen hq h
    cases ht : t.getLast? with
    | none =>
      have : t = [] := List.getLast?_eq_none_iff.mp ht
      simpa [this] using h
    | some a =>
      obtain ⟨ys, rfl⟩ := List.getLast?_eq_some_iff.mp ht
      rcases (hwf.2 _ h).2 with hnil | hmem
      · rw [← List.append_assoc, List.dropLast_concat] at hnil
        exact absurd (List.append_eq_nil.mp hnil).1 hq
      · rw [← List.append_assoc, List.dropLast_concat] at hmem
        exact ih ys q (by simpa using Nat.le_of_succ_le_succ (by simpa using hlen)) hq hmem

/-- Existence is inherited by prefixes in a well-formed store. -/
theorem existsNode_of_pref {s : Store} (hwf : WFStore s) {q r : NodePath}
    (hqr : q <+: r) (hr : existsNode s r = true) : existsNode s q = true := by
  by_cases hq : q = []
  · simp [existsNode, hq]
  · rcases existsNode_iff.mp hr with rfl | hmem
    · obtain rfl : q = [] := List.prefix_nil.mp hqr
      simp [existsNode]
    · obtain ⟨t, rfl⟩ := hqr
      exact existsNode_iff.mpr (Or.inr (pathsClosed hwf t.length t q le_rfl hq hmem))

/-- A node whose parent is missing is itself missing (well-formed store). -/
theorem existsNode_false_of_parent {s : Store} (hwf : WFStore s) {p : NodePath}
    (hpar : existsNode s p.dropLast = false) : existsNode s p = false := by
  rcases h : existsNode s p with _ | _
  · rfl
  · rw [existsNode_of_pref hwf (dropLast_isPref p) h] at hpar
    cases hpar

/-- The chain of missing ancestors of an existing (or root) path is empty. -/
theorem ancChain_eq_nil {s : Store} {r : NodePath} (h : existsNode s r = true) :
    ancChain s r = [] := by
  unfold ancChain
  by_cases hr : r = []
  · rw [if_pos hr]
  · rw [if_neg hr, if_pos h]

/-- The chain of missing ancestors of a missing non-root path starts at that
path. -/
theorem ancChain_cons {s : Store} {r : NodePath} (hr : r ≠ [])
    (h : existsNode s r = false) :
    ancChain s r = (r, autoGenData) :: ancChain s r.dropLast := by
  conv_lhs => rw [ancChain.eq_def]
  rw [if_neg hr, if_neg (by simp [h])]

/-- Every chain entry is a missing, non-root prefix of the starting path and
carries the auto-generated data. -/
theorem ancChain_spec (s : Store) : ∀ n r, r.length ≤ n →
    ∀ nd ∈ ancChain s r,
      nd.2 = autoGenData ∧ nd.1 <+: r ∧ nd.1 ≠ [] ∧ existsNode s nd.1 = false := by
  intro n
  induction n with
  | zero =>
    intro r hlen nd hnd
    obtain rfl : r = [] := List.eq_nil_of_length_eq_zero (by omega)
    rw [ancChain_eq_nil (by simp [existsNode])] at hnd
    cases hnd
  | succ n ih =>
    intro r hlen nd hnd
    by_cases hr : r = []
    · subst hr
      rw [ancChain_eq_nil (by simp [existsNode])] at hnd
      cases hnd
    rcases hex : existsNode s r with _ | _
    · rw [ancChain_cons hr hex] at hnd
      rcases List.mem_cons.mp hnd with rfl | htail
      · exact ⟨rfl, List.prefix_rfl, hr, hex⟩
      · have hlen' : r.dropLast.length ≤ n := by
          have := List.length_pos.mpr hr
          simp only [List.length_dropLast]
          omega
        obtain ⟨hd, hpref, hne, hmiss⟩ := ih r.dropLast hlen' nd htail
        exact ⟨hd, hpref.trans (dropLast_isPref r), hne, hmiss⟩
    · rw [ancChain_eq_nil hex] at hnd
      cases hnd

/-- Missing nodes are unlisted. -/
theorem not_mem_pathsOf {s : Store} {p : NodePath} (h : existsNode s p = false) :
    p ∉ pathsOf s := by
  intro hm
  rw [existsNode_iff.mpr (Or.inr hm)] at h
  cases h

/-- Forced create of a missing path: the store gains exactly the path and
its missing ancestors (the latter with auto-generated data, deepest first),
and the call returns the created path. -/
theorem createInternal_force (s : Store) :
    ∀ n p d acl, p.length ≤ n → p ≠ [] → existsNode s p = false →
      createInternal s p d acl true =
        (⟨(p, d) :: (ancChain s p.dropLast ++ s.nodes)⟩, .ok p) := by
  intro n
  induction n with
  | zero =>
    intro p d acl hlen hne _
    exact absurd (List.eq_nil_of_length_eq_zero (by omega)) hne
  | succ n ih =>
    intro p d acl hlen hne hnex
    rw [createInternal.eq_def, dif_neg hne]
    by_cases hpar : existsNode s p.dropLast = true
    · have hz : zkCreate s p d = .ok ⟨(p, d) :: s.nodes⟩ := by
        unfold zkCreate
        rw [if_neg (by simp [hnex]), if_pos hpar]
      rw [hz, ancChain_eq_nil hpar]
      simp
    · have hpar' : existsNode s p.dropLast = false := by
        simpa using hpar
      have hz : zkCreate s p d = .error .noNode := by
        unfold zkCreate
        rw [if_neg (by simp [hnex]), if_neg (by simp [hpar'])]
      rw [hz]
      have hdne : p.dropLast ≠ [] := by
        intro h0
        rw [h0] at hpar'
        simp [existsNode] at hpar'
      have hlen' : p.dropLast.length ≤ n := by
        have := List.length_pos.mpr hne
        simp only [List.length_dropLast]
        omega
      have hrec := ih p.dropLast autoGenData acl hlen' hdne hpar'
      simp only [if_true, hrec]
      set s2 : Store := ⟨(p.dropLast, autoGenData) ::
        (ancChain s p.dropLast.dropLast ++ s.nodes)⟩ with hs2
      have hex2 : existsNode s2 p = false := by
        rcases hb : existsNode s2 p with _ | _
        · rfl
        exfalso
        rcases existsNode_iff.mp hb with rfl | hmem
        · exact hne rfl
        · have hppos := List.length_pos.mpr hne
          simp only [hs2, pathsOf, List.map_cons, List.map_append, List.mem_cons,
            List.mem_append] at hmem
          rcases hmem with heq | hmem'
          · have := congrArg List.length heq
            simp only [List.length_dropLast] at this
            omega
          rcases hmem' with hchain | hs
          · rcases List.mem_map.mp hchain with ⟨nd, hnd, hfst⟩
            obtain ⟨-, hpref, -, -⟩ :=
              ancChain_spec s p.dropLast.dropLast.length p.dropLast.dropLast le_rfl nd hnd
            have hle := hpref.length_le
            rw [hfst] at hle
            simp only [List.length_dropLast] at hle
            omega
          · exact not_mem_pathsOf hnex (by simpa [pathsOf] using hs)
      have hpar2 : existsNode s2 p.dropLast = true := by
        refine existsNode_iff.mpr (Or.inr ?_)
        simp [hs2, pathsOf]
      have hz2 : zkCreate s2 p d = .ok ⟨(p, d) :: s2.nodes⟩ := by
        unfold zkCreate
        rw [if_neg (by simp [hex2]), if_pos hpar2]
      rw [hz2, ancChain_cons hdne hpar']
      simp [hs2]

/-- Proper prefixes survive dropping the last component. -/
theorem pref_dropLast {q p : NodePath} (h : q <+: p) (hne : q ≠ p) :
    q <+: p.dropLast := by
  obtain ⟨t, rfl⟩ := h
  cases t with
  | nil => simp at hne
  | cons a t' =>
    rw [List.dropLast_append_cons]
    exact List.prefix_append q _

/-- Every non-empty prefix of a path is either in its missing-ancestor
chain or already present (well-formed store). -/
theorem ancChain_covers {s : Store} (hwf : WFStore s) :
    ∀ n r q, r.length ≤ n → q <+: r → q ≠ [] →
      q ∈ (ancChain s r).map Prod.fst ∨ existsNode s q = true := by
  intro n
  induction n with
  | zero =>
    intro r q hlen hqr hq
    obtain rfl : r = [] := List.eq_nil_of_length_eq_zero (by omega)
    exact absurd (List.prefix_nil.mp hqr) hq
  | succ n ih =>
    intro r q hlen hqr hq
    by_cases hr : r = []
    · subst hr
      exact absurd (List.prefix_nil.mp hqr) hq
    rcases hex : existsNode s r with _ | _
    · rw [ancChain_cons hr hex]
      by_cases hqe : q = r
      · subst hqe
        exact Or.inl (by simp)
      · have hlen' : r.dropLast.length ≤ n := by
          have := List.length_pos.mpr hr
          simp only [List.length_dropLast]
          omega
        rcases ih r.dropLast q hlen' (pref_dropLast hqr hqe) hq with hin | hex'
        · exact Or.inl (by simp [hin])
        · exact Or.inr hex'
    · exact Or.inr (existsNode_of_pref hwf hqr hex)

/-- C1: for a path whose parent chain is missing, `Create`'s engine
`createInternal` behaves as claimed: with force=false it returns the NoNode
error of the single create attempt and leaves the store unchanged; with
force=true it creates each missing ancestor with the auto-generated
placeholder data and then the requested path with the given data, returns
the created path without error, and afterwards a path exists iff it existed
before or is a prefix of the requested path.  `Create` with an empty ACL
string is this engine verbatim (`Create_empty_aclstr`). -/
theorem C1_create_missing_parents (s : Store) (p : NodePath) (d : String)
    (acl : List ACL) (hwf : WFStore s) (hpar : existsNode s p.dropLast = false) :
    (createInternal s p d acl false = (s, .error .noNode) ∧
      zkCreate s p d = .error .noNode) ∧
    createInternal s p d acl true =
      (⟨(p, d) :: (ancChain s p.dropLast ++ s.nodes)⟩, .ok p) ∧
    (∀ nd ∈ ancChain s p.dropLast,
      nd.2 = autoGenData ∧ nd.1 <+: p.dropLast ∧ existsNode s nd.1 = false) ∧
    (∀ q, existsNode ⟨(p, d) :: (ancChain s p.dropLast ++ s.nodes)⟩ q = true ↔
      (existsNode s q = true ∨ q <+: p)) ∧
    lookupData ⟨(p, d) :: (ancChain s p.dropLast ++ s.nodes)⟩ p = some d := by
  have hne : p ≠ [] := by
    intro h0
    rw [h0] at hpar
    simp [existsNode] at hpar
  have hnex : existsNode s p = false := existsNode_false_of_parent hwf hpar
  have hz : zkCreate s p d = .error .noNode := by
    unfold zkCreate
    rw [if_neg (by simp [hnex]), if_neg (by simp [hpar])]
  refine ⟨⟨?_, hz⟩, createInternal_force s p.length p d acl le_rfl hne hnex, ?_, ?_, ?_⟩
  · rw [createInternal.eq_def, dif_neg hne, hz]
    simp
  · intro nd hnd
    obtain ⟨hd, hpref, -, hmiss⟩ :=
      ancChain_spec s p.dropLast.length p.dropLast le_rfl nd hnd
    exact ⟨hd, hpref, hmiss⟩
  · intro q
    constructor
    · intro hq
      rcases existsNode_iff.mp hq with rfl | hmem
      · exact Or.inl (by simp [existsNode])
      simp only [pathsOf, List.map_cons, List.map_append, List.mem_cons,
        List.mem_append] at hmem
      rcases hmem with rfl | hmem'
      · exact Or.inr List.prefix_rfl
      rcases hmem' with hchain | hs
      · rcases List.mem_map.mp hchain with ⟨nd, hnd, hfst⟩
        obtain ⟨-, hpref, -, -⟩ :=
          ancChain_spec s p.dropLast.length p.dropLast le_rfl nd hnd
        exact Or.inr (hfst ▸ hpref.trans (dropLast_isPref p))
      · exact Or.inl (existsNode_iff.mpr (Or.inr (by simpa [pathsOf] using hs)))
    · intro hq
      by_cases hqnil : q = []
      · simp [existsNode, hqnil]
      rcases hq with hex | hqp
      · rcases existsNode_iff.mp hex with rfl | hmem
        · simp [existsNode]
        · refine existsNode_iff.mpr (Or.inr ?_)
          simp [pathsOf, List.mem_map] at hmem ⊢
          tauto
      · by_cases hqe : q = p
        · subst hqe
          refine existsNode_iff.mpr (Or.inr ?_)
          simp [pathsOf]
        · have hcover := ancChain_covers hwf p.dropLast.length p.dropLast q le_rfl
            (pref_dropLast hqp hqe) hqnil
          rcases hcover with hin | hex'
          · refine existsNode_iff.mpr (Or.inr ?_)
            simp only [pathsOf, List.map_cons, List.map_append, List.mem_cons,
              List.mem_append]
            exact Or.inr (Or.inl (by simpa [pathsOf] using hin))
          · rcases existsNode_iff.mp hex' with rfl | hmem
            · exact absurd rfl hqnil
            · refine existsNode_iff.mpr (Or.inr ?_)
              simp only [pathsOf, List.map_cons, List.map_append, List.mem_cons,
                List.mem_append]
              exact Or.inr (Or.inr (by simpa [pathsOf] using hmem))
  · simp [lookupData, List.find?]

/-- C1 witness: in the store holding only `/a`, creating `/a/b/c` with
force adds `/a/b` (placeholder data) and `/a/b/c`; without force the single
attempt's NoNode error comes back and the store is unchanged. -/
theorem C1_witness :
    WFStore ⟨[(["a"], "x")]⟩ ∧
    existsNode ⟨[(["a"], "x")]⟩ (["a", "b", "c"] : NodePath).dropLast = false ∧
    (createInternal ⟨[(["a"], "x")]⟩ ["a", "b", "c"] "v" [] true =
      (⟨(["a", "b", "c"], "v") ::
        (ancChain ⟨[(["a"], "x")]⟩ (["a", "b", "c"] : NodePath).dropLast ++
          [(["a"], "x")])⟩, .ok ["a", "b", "c"]) ∧
      createInternal ⟨[(["a"], "x")]⟩ ["a", "b", "c"] "v" [] false =
        (⟨[(["a"], "x")]⟩, .error .noNode)) :=
  ⟨by decide, by decide,
    (C1_create_missing_parents ⟨[(["a"], "x")]⟩ ["a", "b", "c"] "v" []
      (by decide) (by decide)).2.1,
    (C1_create_missing_parents ⟨[(["a"], "x")]⟩ ["a", "b", "c"] "v" []
      (by decide) (by decide)).1.1⟩

/-- Unfolding of the walk at a missing path. -/
theorem cri_missing {s : Store} {p : NodePath} (inc : NodePath)
    (h : existsNode s p = false) :
    childrenRecursiveInternal s p inc = .error .noNode := by
  rw [childrenRecursiveInternal.eq_def]
  rw [if_neg (by simp [h])]

/-- Unfolding of the walk at an existing path. -/
theorem cri_found {s : Store} {p : NodePath} (inc : NodePath)
    (h : existsNode s p = true) :
    childrenRecursiveInternal s p inc =
      childrenRecursiveLoop s p inc (sortStrings (zkChildrenNames s p))
        (childArgMem s p) := by
  rw [childrenRecursiveInternal.eq_def]
  rw [if_pos h]

/-- Unfolding of the walk loop on an empty child list. -/
theorem crl_nil {s : Store} {p inc : NodePath} {hcs} :
    childrenRecursiveLoop s p inc [] hcs = .ok [] := by
  rw [childrenRecursiveLoop.eq_def]

/-- Unfolding of the walk loop on a child: the child's incremental path,
its recursive listing, then the remaining children. -/
theorem crl_cons {s : Store} {p inc : NodePath} {c : String} {rest : List String}
    {hcs} :
    childrenRecursiveLoop s p inc (c :: rest) hcs =
      (do
        let sub ← childrenRecursiveInternal s (p ++ [c]) (inc ++ [c])
        let tail ←
          childrenRecursiveLoop s p inc rest
            (fun x hx => hcs x (List.mem_cons_of_mem _ hx))
        .ok ((inc ++ [c]) :: (sub ++ tail))) := by
  rw [childrenRecursiveLoop.eq_def]

/-- The sorted children are sorted weakly. -/
theorem sortStrings_sorted (l : List String) :
    (sortStrings l).Pairwise (· ≤ ·) := by
  have h := @List.sorted_mergeSort String (fun a b => decide (a ≤ b))
    (fun a b c hab hbc => by
      simp only [decide_eq_true_eq] at *
      exact le_trans hab hbc)
    (fun a b => by
      simp only [Bool.or_eq_true, decide_eq_true_eq]
      exact le_total a b)
    l
  exact h.imp (fun hab => by simpa using hab)

/-- Sorting keeps distinctness. -/
theorem sortStrings_nodup {l : List String} (h : l.Nodup) :
    (sortStrings l).Nodup :=
  ((List.mergeSort_perm l _).nodup_iff).mpr h

/-- Distinct sorted children are strictly sorted. -/
theorem sortStrings_strict {l : List String} (h : l.Nodup) :
    (sortStrings l).Pairwise (· < ·) := by
  have h1 := sortStrings_sorted l
  have h2 : (sortStrings l).Pairwise (· ≠ ·) := sortStrings_nodup h
  exact (h1.and h2).imp (fun hab => lt_of_le_of_ne hab.1 hab.2)

/-- Child names of one node, read off the stored paths. -/
theorem zkChildrenNames_eq (s : Store) (p : NodePath) :
    zkChildrenNames s p =
      (pathsOf s).filterMap
        (fun q => if q.dropLast == p then q.getLast? else none) := by
  unfold zkChildrenNames pathsOf
  rw [List.filterMap_map]
  rfl

/-- A successful child-name extraction pins the path down. -/
theorem childNameOf {p q : NodePath} {c : String}
    (h : (if q.dropLast == p then q.getLast? else none) = some c) :
    q = p ++ [c] := by
  split at h
  · next heq =>
    obtain ⟨ys, rfl⟩ := List.getLast?_eq_some_iff.mp h
    have : ys = p := by
      have hd : (ys ++ [c]).dropLast = p := by simpa using heq
      rwa [List.dropLast_concat] at hd
    rw [this]
  · cases h

/-- Distinct paths give distinct child names. -/
theorem zkChildrenNames_nodup {s : Store} (hnd : (pathsOf s).Nodup) (p : NodePath) :
    (zkChildrenNames s p).Nodup := by
  rw [zkChildrenNames_eq]
  refine List.Nodup.filterMap ?_ hnd
  intro q q' c hq hq'
  rw [childNameOf (Option.mem_def.mp hq), childNameOf (Option.mem_def.mp hq')]

/-- The incremental path is a pure prefix: the walk with incremental path
`inc` equals the walk with the empty incremental path with every element
prefixed by `inc`. -/
theorem crHom (n : Nat) : ∀ s p, descCount s p ≤ n →
    (∀ cs hcs inc, childrenRecursiveLoop s p inc cs hcs =
      (childrenRecursiveLoop s p [] cs hcs).map (List.map (inc ++ ·))) ∧
    (∀ inc, childrenRecursiveInternal s p inc =
      (childrenRecursiveInternal s p []).map (List.map (inc ++ ·))) := by
  induction n using Nat.strong_induction_on with
  | _ n ih =>
    intro s p hn
    have hloop : ∀ cs hcs inc, childrenRecursiveLoop s p inc cs hcs =
        (childrenRecursiveLoop s p [] cs hcs).map (List.map (inc ++ ·)) := by
      intro cs
      induction cs with
      | nil =>
        intro hcs inc
        rw [crl_nil, crl_nil]
        rfl
      | cons c rest ihr =>
        intro hcs inc
        have hmem := hcs c (List.mem_cons_self c rest)
        have hlt : descCount s (p ++ [c]) < n :=
          lt_of_lt_of_le (descCount_child_lt hmem) hn
        have hcri := (ih _ hlt s (p ++ [c]) le_rfl).2
        rw [crl_cons, crl_cons]
        rw [hcri (inc ++ [c]), hcri ([] ++ [c])]
        rw [ihr (fun x hx => hcs x (List.mem_cons_of_mem _ hx)) inc]
        cases childrenRecursiveInternal s (p ++ [c]) [] with
        | error e => simp [Except.map, Bind.bind, Except.bind]
        | ok sub =>
          cases childrenRecursiveLoop s p []
              rest (fun x hx => hcs x (List.mem_cons_of_mem _ hx)) with
          | error e => simp [Except.map, Bind.bind, Except.bind]
          | ok tail =>
            simp [Except.map, Bind.bind, Except.bind, List.map_map, Function.comp,
              List.append_assoc]
    refine ⟨hloop, ?_⟩
    intro inc
    rcases hex : existsNode s p with _ | _
    · rw [cri_missing inc hex, cri_missing [] hex]
      rfl
    · rw [cri_found inc hex, cri_found [] hex]
      exact hloop _ _ inc

/-- Specification of the recursive walk from an existing path with empty
incremental path: it succeeds, lists exactly the relative paths of the
stored strict descendants, and is strictly sorted in the lexicographic
order of component lists (prefixes first). -/
theorem cri_spec (n : Nat) : ∀ s p, WFStore s → descCount s p ≤ n →
    existsNode s p = true →
    ∃ l, childrenRecursiveInternal s p [] = .ok l ∧
      (∀ r, r ∈ l ↔ (r ≠ [] ∧ p ++ r ∈ pathsOf s)) ∧
      l.Pairwise (List.Lex (· < ·)) := by
  induction n using Nat.strong_induction_on with
  | _ n ih =>
    intro s p hwf hn hex
    rw [cri_found [] hex]
    have hmemc : ∀ c, c ∈ sortStrings (zkChildrenNames s p) ↔ p ++ [c] ∈ pathsOf s :=
      fun c => (mem_sortStrings _ c).trans (zkChildrenNames_mem s p c)
    have hstrict : (sortStrings (zkChildrenNames s p)).Pairwise (· < ·) :=
      sortStrings_strict (zkChildrenNames_nodup hwf.1 p)
    have inner : ∀ cs' (hcs' : ∀ c ∈ cs', p ++ [c] ∈ pathsOf s),
        cs'.Pairwise (· < ·) →
        ∃ L, childrenRecursiveLoop s p [] cs' hcs' = .ok L ∧
          (∀ r, r ∈ L ↔ ∃ c ∈ cs', ∃ t, r = c :: t ∧ p ++ c :: t ∈ pathsOf s) ∧
          L.Pairwise (List.Lex (· < ·)) := by
      intro cs'
      induction cs' with
      | nil =>
        intro hcs' _
        exact ⟨[], crl_nil, by simp, List.Pairwise.nil⟩
      | cons c rest ihr =>
        intro hcs' hstrict'
        have hchild : p ++ [c] ∈ pathsOf s := hcs' c (List.mem_cons_self c rest)
        have hlt : descCount s (p ++ [c]) < n :=
          lt_of_lt_of_le (descCount_child_lt hchild) hn
        have hex_c : existsNode s (p ++ [c]) = true :=
          existsNode_iff.mpr (Or.inr hchild)
        obtain ⟨sub0, hsub0, hmem0, hpair0⟩ :=
          ih _ hlt s (p ++ [c]) hwf le_rfl hex_c
        obtain ⟨tail, htail, hmemt, hpairt⟩ :=
          ihr (fun x hx => hcs' x (List.mem_cons_of_mem _ hx))
            (List.Pairwise.sublist (List.sublist_cons_self c rest) hstrict')
        have hhd : ∀ c' ∈ rest, c < c' := (List.pairwise_cons.mp hstrict').1
        have hcrHom := (crHom (descCount s (p ++ [c])) s (p ++ [c]) le_rfl).2 ([] ++ [c])
        rw [hsub0] at hcrHom
        refine ⟨([] ++ [c]) :: (sub0.map (([] ++ [c]) ++ ·) ++ tail), ?_, ?_, ?_⟩
        · rw [crl_cons, hcrHom, htail]
          simp [Except.map, Bind.bind, Except.bind]
        · intro r
          simp only [List.nil_append, List.mem_cons, List.mem_append, List.mem_map]
          constructor
          · rintro (rfl | ⟨⟨r', hr', rfl⟩ | hrt⟩)
            · exact ⟨c, Or.inl rfl, [], rfl, by simpa using hchild⟩
            · obtain ⟨hne', hmem'⟩ := (hmem0 r').mp hr'
              refine ⟨c, Or.inl rfl, r', by simp, ?_⟩
              have : p ++ c :: r' = (p ++ [c]) ++ r' := by simp
              rw [this]
              exact hmem'
            · obtain ⟨c', hc', t, rfl, hmem'⟩ := (hmemt r).mp hrt
              exact ⟨c', Or.inr hc', t, rfl, hmem'⟩
          · rintro ⟨c', hc', t, rfl, hmem'⟩
            rcases hc' with rfl | hc'rest
            · cases t with
              | nil => exact Or.inl rfl
              | cons x xs =>
                refine Or.inr (Or.inl ⟨x :: xs, ?_, by simp⟩)
                refine (hmem0 (x :: xs)).mpr ⟨by simp, ?_⟩
                have : p ++ c' :: x :: xs = (p ++ [c']) ++ x :: xs := by simp
                rwa [this] at hmem'
            · exact Or.inr (Or.inr ((hmemt _).mpr ⟨c', hc'rest, t, rfl, hmem'⟩))
        · simp only [List.nil_append]
          rw [List.pairwise_cons]
          constructor
          · intro r hr
            rcases List.mem_append.mp hr with hrs | hrt
            · obtain ⟨r', hr', rfl⟩ := List.mem_map.mp hrs
              obtain ⟨hne', -⟩ := (hmem0 r').mp hr'
              cases r' with
              | nil => exact absurd rfl hne'
              | cons x xs => exact List.Lex.cons List.Lex.nil
            · obtain ⟨c', hc', t, rfl, -⟩ := (hmemt _).mp hrt
              exact List.Lex.rel (hhd c' hc')
          · rw [List.pairwise_append]
            refine ⟨?_, hpairt, ?_⟩
            · refine List.Pairwise.map _ ?_ hpair0
              intro a b hab
              exact List.Lex.cons hab
            · intro r hrs r' hrt
              obtain ⟨a, ha, rfl⟩ := List.mem_map.mp hrs
              obtain ⟨c', hc', t, rfl, -⟩ := (hmemt _).mp hrt
              exact List.Lex.rel (hhd c' hc')
    obtain ⟨L, hL, hmemL, hpairL⟩ :=
      inner (sortStrings (zkChildrenNames s p)) (childArgMem s p) hstrict
    refine ⟨L, hL, ?_, hpairL⟩
    intro r
    rw [hmemL r]
    constructor
    · rintro ⟨c, hc, t, rfl, hmem'⟩
      exact ⟨by simp, hmem'⟩
    · rintro ⟨hne, hmem'⟩
      cases r with
      | nil => exact absurd rfl hne
      | cons c t =>
        refine ⟨c, ?_, t, rfl, hmem'⟩
        rw [hmemc c]
        have : p ++ c :: t = (p ++ [c]) ++ t := by simp
        rw [this] at hmem'
        exact pathsClosed hwf t.length t (p ++ [c]) le_rfl (by simp) hmem'

/-- A proper prefix is lexicographically smaller. -/
theorem pref_lex {q r : NodePath} (h : q <+: r) (hne : q ≠ r) :
    List.Lex (· < ·) q r := by
  obtain ⟨t, rfl⟩ := h
  induction q with
  | nil =>
    cases t with
    | nil => simp at hne
    | cons a t' => exact List.Lex.nil
  | cons a q' ihq => exact List.Lex.cons (ihq (by simpa using hne))

/-- Lexicographic order on component lists is asymmetric. -/
theorem lex_asymm {a b : NodePath} (h : List.Lex (· < ·) a b) :
    ¬ List.Lex (· < ·) b a :=
  IsAsymm.asymm a b h

/-- C5: for a well-formed store, `ChildrenRecursive` errors exactly on a
missing path; on an existing path it returns every stored strict descendant
exactly once as a path relative to the given path, each node listed before
its own descendants (no later element is a strict ancestor of an earlier
one) and the whole list — hence the siblings at each level — in
lexicographic order. -/
theorem C5_children_recursive (s : Store) (p : NodePath) (hwf : WFStore s) :
    (existsNode s p = false → ChildrenRecursive s p = .error .noNode) ∧
    (existsNode s p = true → ∃ l, ChildrenRecursive s p = .ok l ∧
      (∀ r, r ∈ l ↔ (r ≠ [] ∧ p ++ r ∈ pathsOf s)) ∧
      l.Nodup ∧
      l.Pairwise (List.Lex (· < ·)) ∧
      l.Pairwise (fun a b => ¬(b <+: a ∧ b ≠ a))) := by
  constructor
  · intro h
    unfold ChildrenRecursive
    exact cri_missing [] h
  · intro h
    obtain ⟨l, hl, hmem, hpair⟩ := cri_spec (descCount s p) s p hwf le_rfl h
    refine ⟨l, hl, hmem, ?_, hpair, ?_⟩
    · refine hpair.imp ?_
      intro a b hab
      intro heq
      subst heq
      exact lex_asymm hab hab
    · refine hpair.imp ?_
      intro a b hab
      rintro ⟨hpref, hne⟩
      exact lex_asymm hab (pref_lex hpref hne)

/-- C5 witness: the walk over a three-node store from `/a`. -/
theorem C5_witness :
    WFStore ⟨[(["a"], "x"), (["a", "b"], "y"), (["c"], "z")]⟩ ∧
    ((existsNode ⟨[(["a"], "x"), (["a", "b"], "y"), (["c"], "z")]⟩ ["a"] = false →
      ChildrenRecursive ⟨[(["a"], "x"), (["a", "b"], "y"), (["c"], "z")]⟩ ["a"] =
        .error .noNode) ∧
    (existsNode ⟨[(["a"], "x"), (["a", "b"], "y"), (["c"], "z")]⟩ ["a"] = true →
      ∃ l, ChildrenRecursive ⟨[(["a"], "x"), (["a", "b"], "y"), (["c"], "z")]⟩
          ["a"] = .ok l ∧
        (∀ r, r ∈ l ↔ (r ≠ [] ∧
          ["a"] ++ r ∈ pathsOf ⟨[(["a"], "x"), (["a", "b"], "y"), (["c"], "z")]⟩)) ∧
        l.Nodup ∧
        l.Pairwise (List.Lex (· < ·)) ∧
        l.Pairwise (fun a b => ¬(b <+: a ∧ b ≠ a)))) :=
  ⟨by decide,
    C5_children_recursive ⟨[(["a"], "x"), (["a", "b"], "y"), (["c"], "z")]⟩ ["a"]
      (by decide)⟩

/-- Sorting depends only on the multiset of names. -/
theorem sortStrings_congr {l₁ l₂ : List String} (h : l₁.Perm l₂) :
    sortStrings l₁ = sortStrings l₂ := by
  have hp : (sortStrings l₁).Perm (sortStrings l₂) :=
    (List.mergeSort_perm l₁ _).trans (h.trans (List.mergeSort_perm l₂ _).symm)
  have h₁ : List.Sorted (· ≤ ·) (sortStrings l₁) := sortStrings_sorted l₁
  have h₂ : List.Sorted (· ≤ ·) (sortStrings l₂) := sortStrings_sorted l₂
  exact List.eq_of_perm_of_sorted hp h₁ h₂

/-- Paths of a filtered store. -/
theorem pathsOf_filter {s : Store} {keep : NodePath → Bool} {q : NodePath} :
    q ∈ pathsOf ⟨s.nodes.filter (fun nd => keep nd.1)⟩ ↔
      q ∈ pathsOf s ∧ keep q = true := by
  simp only [pathsOf, List.mem_map, List.mem_filter]
  constructor
  · rintro ⟨nd, ⟨hnd, hk⟩, rfl⟩
    exact ⟨⟨nd, hnd, rfl⟩, hk⟩
  · rintro ⟨⟨nd, hnd, rfl⟩, hk⟩
    exact ⟨nd, ⟨hnd, hk⟩, rfl⟩

/-- Distinct paths stay distinct after filtering. -/
theorem pathsOf_filter_nodup {s : Store} (h : (pathsOf s).Nodup)
    (keep : NodePath → Bool) :
    (pathsOf ⟨s.nodes.filter (fun nd => keep nd.1)⟩).Nodup :=
  List.Nodup.sublist (List.Sublist.map _ (List.filter_sublist _)) h

/-- Removing a subtree-closed set of nodes keeps the store well-formed:
whenever a removed path's extension is also removed, parent-closure
survives. -/
theorem WF_filter {s : Store} (hwf : WFStore s) {keep : NodePath → Bool}
    (hup : ∀ q ext, keep q = false → q <+: ext → keep ext = false) :
    WFStore ⟨s.nodes.filter (fun nd => keep nd.1)⟩ := by
  refine ⟨pathsOf_filter_nodup hwf.1 keep, ?_⟩
  intro q hq
  obtain ⟨hqs, hk⟩ := pathsOf_filter.mp hq
  obtain ⟨hne, hpar⟩ := hwf.2 q hqs
  refine ⟨hne, ?_⟩
  rcases hpar with h0 | hmem
  · exact Or.inl h0
  · refine Or.inr (pathsOf_filter.mpr ⟨hmem, ?_⟩)
    rcases hkp : keep q.dropLast with _ | _
    · rw [hup q.dropLast q hkp (dropLast_isPref q)] at hk
      cases hk
    · rfl

/-- The walk depends only on the stored paths at or below the start: two
stores with distinct paths that agree below `p` walk `p` identically. -/
theorem cri_ext (n : Nat) : ∀ s u p, descCount s p ≤ n →
    (∀ q, p <+: q → (q ∈ pathsOf s ↔ q ∈ pathsOf u)) →
    (pathsOf s).Nodup → (pathsOf u).Nodup →
    (∀ cs hcsS hcsU inc, childrenRecursiveLoop s p inc cs hcsS =
      childrenRecursiveLoop u p inc cs hcsU) ∧
    (∀ inc, childrenRecursiveInternal s p inc =
      childrenRecursiveInternal u p inc) := by
  induction n using Nat.strong_induction_on with
  | _ n ih =>
    intro s u p hn hagree hnds hndu
    have hloop : ∀ cs hcsS hcsU inc, childrenRecursiveLoop s p inc cs hcsS =
        childrenRecursiveLoop u p inc cs hcsU := by
      intro cs
      induction cs with
      | nil => intro hcsS hcsU inc; rw [crl_nil, crl_nil]
      | cons c rest ihr =>
        intro hcsS hcsU inc
        have hmem := hcsS c (List.mem_cons_self c rest)
        have hlt : descCount s (p ++ [c]) < n :=
          lt_of_lt_of_le (descCount_child_lt hmem) hn
        have hagree' : ∀ q, (p ++ [c]) <+: q → (q ∈ pathsOf s ↔ q ∈ pathsOf u) :=
          fun q hq => hagree q ((List.prefix_append p [c]).trans hq)
        have hchild := (ih _ hlt s u (p ++ [c]) le_rfl hagree' hnds hndu).2 (inc ++ [c])
        rw [crl_cons, crl_cons, hchild,
          ihr (fun x hx => hcsS x (List.mem_cons_of_mem _ hx))
            (fun x hx => hcsU x (List.mem_cons_of_mem _ hx)) inc]
    refine ⟨hloop, ?_⟩
    intro inc
    have hexeq : existsNode s p = existsNode u p := by
      rcases hs : existsNode s p with _ | _ <;> rcases hu : existsNode u p with _ | _
      · rfl
      · exfalso
        rcases existsNode_iff.mp hu with rfl | hmem
        · simp [existsNode] at hs
        · rw [existsNode_iff.mpr (Or.inr ((hagree p List.prefix_rfl).mpr hmem))] at hs
          cases hs
      · exfalso
        rcases existsNode_iff.mp hs with rfl | hmem
        · simp [existsNode] at hu
        · rw [existsNode_iff.mpr (Or.inr ((hagree p List.prefix_rfl).mp hmem))] at hu
          cases hu
      · rfl
    rcases hex : existsNode s p with _ | _
    · rw [cri_missing inc hex, cri_missing inc (hexeq ▸ hex)]
    · have hnames : (zkChildrenNames s p).Perm (zkChildrenNames u p) := by
        rw [List.perm_ext_iff_of_nodup (zkChildrenNames_nodup hnds p)
          (zkChildrenNames_nodup hndu p)]
        intro c
        rw [zkChildrenNames_mem, zkChildrenNames_mem]
        exact hagree (p ++ [c]) (List.prefix_append p [c])
      have hsorteq : sortStrings (zkChildrenNames s p) =
          sortStrings (zkChildrenNames u p) := sortStrings_congr hnames
      rw [cri_found inc hex, cri_found inc (hexeq ▸ hex)]
      have := hloop (sortStrings (zkChildrenNames s p)) (childArgMem s p)
        (hsorteq ▸ childArgMem u p) inc
      rw [this]
      congr 1

/-- Splitting the deletion loop: once the first half succeeds, the loop
continues on the updated store. -/
theorem deleteAll_append_ok {s s' : Store} {xs : List NodePath}
    (h : deleteAll s xs = (s', none)) (ys : List NodePath) :
    deleteAll s (xs ++ ys) = deleteAll s' ys := by
  induction xs generalizing s with
  | nil =>
    obtain rfl : s = s' := congrArg Prod.fst h
    rfl
  | cons q rest ih =>
    rw [List.cons_append]
    simp only [deleteAll] at h ⊢
    cases hzk : zkDelete s q with
    | ok s1 =>
      rw [hzk] at h
      exact ih h
    | error e =>
      rw [hzk] at h
      exact absurd (congrArg Prod.snd h) (by simp)

/-- Prefixes of one list with equal length coincide. -/
theorem pref_eq_of_length {l1 l2 q : NodePath} (h1 : l1 <+: q) (h2 : l2 <+: q)
    (hlen : l1.length = l2.length) : l1 = l2 := by
  rw [List.prefix_iff_eq_take] at h1 h2
  rw [h1, h2, hlen]

/-- Filtering cannot increase the descendant count. -/
theorem descCount_filter_le (s : Store) (keep : NodePath → Bool) (p : NodePath) :
    descCount ⟨s.nodes.filter (fun nd => keep nd.1)⟩ p ≤ descCount s p := by
  unfold descCount
  exact ((List.filter_sublist _).map Prod.fst).countP_le _

/-- Deleting a subtree: walking an existing path with its own absolute path
as incremental path lists the absolute paths of its strict descendants;
deleting them in reverse order and then the path itself succeeds and leaves
exactly the nodes outside the subtree, in their original order. -/
theorem delMain (n : Nat) : ∀ t p, WFStore t → descCount t p ≤ n →
    (∀ cs hcs L, cs.Nodup →
      childrenRecursiveLoop t p p cs hcs = .ok L →
      deleteAll t L.reverse =
        (⟨t.nodes.filter
          (fun nd => !(cs.any (fun c => (p ++ [c]).isPrefixOf nd.1)))⟩, none)) ∧
    (∀ l, p ∈ pathsOf t →
      childrenRecursiveInternal t p p = .ok l →
      deleteAll t (l.reverse ++ [p]) =
        (⟨t.nodes.filter (fun nd => !(p.isPrefixOf nd.1))⟩, none)) := by
  induction n using Nat.strong_induction_on with
  | _ n ih =>
    intro t p hwf hn
    have hloop : ∀ cs hcs L, cs.Nodup →
        childrenRecursiveLoop t p p cs hcs = .ok L →
        deleteAll t L.reverse =
          (⟨t.nodes.filter
            (fun nd => !(cs.any (fun c => (p ++ [c]).isPrefixOf nd.1)))⟩, none) := by
      intro cs
      induction cs with
      | nil =>
        intro hcs L _ hL
        rw [crl_nil] at hL
        obtain rfl : ([] : List NodePath) = L := by simpa using hL
        simp [deleteAll]
      | cons c rest ihr =>
        intro hcs L hnd hL
        have hcmem : p ++ [c] ∈ pathsOf t := hcs c (List.mem_cons_self c rest)
        obtain ⟨hcnotin, hndrest⟩ := List.nodup_cons.mp hnd
        rw [crl_cons] at hL
        cases hsub : childrenRecursiveInternal t (p ++ [c]) (p ++ [c]) with
        | error e =>
          rw [hsub] at hL
          simp [Bind.bind, Except.bind] at hL
        | ok sub =>
          rw [hsub] at hL
          cases htail : childrenRecursiveLoop t p p rest
              (fun x hx => hcs x (List.mem_cons_of_mem _ hx)) with
          | error e =>
            rw [htail] at hL
            simp [Bind.bind, Except.bind] at hL
          | ok tail =>
            rw [htail] at hL
            simp only [Bind.bind, Except.bind, Except.ok.injEq] at hL
            subst hL
            have hnotc : ∀ q : NodePath, (p ++ [c]) <+: q →
                (rest.any (fun c' => (p ++ [c']).isPrefixOf q)) = false := by
              intro q hq
              rcases ha : rest.any (fun c' => (p ++ [c']).isPrefixOf q) with _ | _
              · rfl
              · exfalso
                obtain ⟨c', hc', hpref⟩ := List.any_eq_true.mp ha
                have : p ++ [c'] = p ++ [c] :=
                  pref_eq_of_length (isPrefixOf_eq_true_iff.mp hpref) hq (by simp)
                obtain rfl : c' = c := by simpa using this
                exact hcnotin hc'
            have h1 := ihr (fun x hx => hcs x (List.mem_cons_of_mem _ hx)) tail
              hndrest htail
            set keep1 : NodePath → Bool :=
              fun q => !(rest.any (fun c' => (p ++ [c']).isPrefixOf q)) with hkeep1
            set t1 : Store := ⟨t.nodes.filter (fun nd => keep1 nd.1)⟩ with ht1
            have hagree : ∀ q, (p ++ [c]) <+: q →
                (q ∈ pathsOf t ↔ q ∈ pathsOf t1) := by
              intro q hq
              rw [pathsOf_filter]
              have : keep1 q = true := by
                rw [hkeep1]
                simp only [hnotc q hq]
                rfl
              simp [this]
            have hwf1 : WFStore t1 := by
              refine WF_filter hwf ?_
              intro q ext hq hqe
              rcases hk : keep1 ext with _ | _
              · rfl
              · exfalso
                rw [hkeep1] at hq hk
                simp only [Bool.not_eq_false'] at hq
                simp only [Bool.not_eq_true'] at hk
                obtain ⟨c', hc', hpref⟩ := List.any_eq_true.mp hq
                rw [List.any_eq_false] at hk
                exact absurd (isPrefixOf_eq_true_iff.mpr
                  ((isPrefixOf_eq_true_iff.mp hpref).trans hqe)) (by simpa using hk c' hc')
            have hmem1 : p ++ [c] ∈ pathsOf t1 :=
              (hagree (p ++ [c]) List.prefix_rfl).mp hcmem
            have hlt1 : descCount t1 (p ++ [c]) < n :=
              lt_of_le_of_lt (descCount_filter_le t keep1 (p ++ [c]))
                (lt_of_lt_of_le (descCount_child_lt hcmem) hn)
            have hsub1 : childrenRecursiveInternal t1 (p ++ [c]) (p ++ [c]) = .ok sub := by
              rw [← (cri_ext (descCount t (p ++ [c])) t t1 (p ++ [c]) le_rfl hagree
                hwf.1 hwf1.1).2 (p ++ [c])]
              exact hsub
            have h2 := (ih _ hlt1 t1 (p ++ [c]) hwf1 le_rfl).2 sub hmem1 hsub1
            rw [List.reverse_cons, List.reverse_append, List.append_assoc]
            rw [deleteAll_append_ok h1, h2]
            rw [Prod.mk.injEq]
            refine ⟨?_, rfl⟩
            rw [ht1]
            simp only [List.filter_filter]
            refine congrArg Store.mk (List.filter_congr ?_)
            intro nd _
            rw [hkeep1]
            simp [List.any_cons, Bool.not_or, Bool.and_comm]
    refine ⟨hloop, ?_⟩
    intro l hp hcri
    have hex : existsNode t p = true := existsNode_iff.mpr (Or.inr hp)
    rw [cri_found p hex] at hcri
    have hnd : (sortStrings (zkChildrenNames t p)).Nodup :=
      sortStrings_nodup (zkChildrenNames_nodup hwf.1 p)
    have h1 := hloop _ (childArgMem t p) l hnd hcri
    rw [deleteAll_append_ok h1]
    set keepAll : NodePath → Bool := fun q =>
      !((sortStrings (zkChildrenNames t p)).any
        (fun c => (p ++ [c]).isPrefixOf q)) with hkeepAll
    set t1 : Store := ⟨t.nodes.filter (fun nd => keepAll nd.1)⟩ with ht1
    have hpne : p ≠ [] := (hwf.2 p hp).1
    have hkeepp : keepAll p = true := by
      rw [hkeepAll]
      simp only [Bool.not_eq_true']
      rw [List.any_eq_false]
      intro c _
      rcases hb : (p ++ [c]).isPrefixOf p with _ | _
      · simp
      · have := (isPrefixOf_eq_true_iff.mp hb).length_le
        simp at this
    have hpt1 : p ∈ pathsOf t1 := pathsOf_filter.mpr ⟨hp, hkeepp⟩
    have hchild1 : zkChildrenNames t1 p = [] := by
      rw [List.eq_nil_iff_forall_not_mem]
      intro c hc
      have hmem := (zkChildrenNames_mem t1 p c).mp hc
      obtain ⟨hmt, hk⟩ := pathsOf_filter.mp hmem
      rw [hkeepAll] at hk
      simp only [Bool.not_eq_true'] at hk
      rw [List.any_eq_false] at hk
      have hcs : c ∈ sortStrings (zkChildrenNames t p) :=
        (mem_sortStrings _ c).mpr ((zkChildrenNames_mem t p c).mpr hmt)
      have hrefl : (p ++ [c]).isPrefixOf (p ++ [c]) = true :=
        isPrefixOf_eq_true_iff.mpr List.prefix_rfl
      exact absurd hrefl (by simpa using hk c hcs)
    have hdel : zkDelete t1 p = .ok ⟨t1.nodes.filter (fun nd => nd.1 != p)⟩ := by
      unfold zkDelete
      rw [if_neg (by simp [hpne]), if_neg (by simp [existsNode_iff.mpr (Or.inr hpt1)]),
        if_neg (by simp [hchild1])]
    simp only [deleteAll, hdel]
    rw [Prod.mk.injEq]
    refine ⟨?_, rfl⟩
    simp only [List.filter_filter]
    refine congrArg Store.mk (List.filter_congr ?_)
    intro nd hnd'
    rcases hpq : p.isPrefixOf nd.1 with _ | _
    · have hne : (nd.1 != p) = true := by
        refine bne_iff_ne.mpr ?_
        intro hEq
        rw [hEq, isPrefixOf_eq_true_iff.mpr List.prefix_rfl] at hpq
        cases hpq
      have hka : keepAll nd.1 = true := by
        rw [hkeepAll]
        simp only [Bool.not_eq_true']
        rw [List.any_eq_false]
        intro c _
        rcases hb : (p ++ [c]).isPrefixOf nd.1 with _ | _
        · simp
        · exfalso
          have := (List.prefix_append p [c]).trans (isPrefixOf_eq_true_iff.mp hb)
          rw [isPrefixOf_eq_true_iff.mpr this] at hpq
          cases hpq
      rw [hne, hka]
      rfl
    · by_cases hb : nd.1 = p
      · rw [hb]
        simp
      · have hq := isPrefixOf_eq_true_iff.mp hpq
        obtain ⟨tl, htl⟩ := hq
        cases tl with
        | nil => exact absurd (by rw [← htl]; simp) hb
        | cons x xs =>
          have hxpaths : p ++ [x] ∈ pathsOf t := by
            have : nd.1 ∈ pathsOf t := List.mem_map.mpr ⟨nd, hnd', rfl⟩
            rw [← htl] at this
            have h' : (p ++ [x]) ++ xs ∈ pathsOf t := by
              rw [List.append_assoc]
              exact this
            exact pathsClosed hwf xs.length xs (p ++ [x]) le_rfl (by simp) h'
          have hka : keepAll nd.1 = false := by
            rw [hkeepAll]
            simp only [Bool.not_eq_false']
            rw [List.any_eq_true]
            refine ⟨x, (mem_sortStrings _ x).mpr ((zkChildrenNames_mem t p x).mpr hxpaths), ?_⟩
            rw [isPrefixOf_eq_true_iff]
            exact ⟨xs, by rw [← htl]; simp⟩
          rw [hka]
          simp

/-- C2: for an existing path in a well-formed store, `DeleteRecursive`
passes to `Delete` exactly the stored nodes at or below the path
(`deleteSeq`), ends with the path itself, never deletes a node before one
of its own strict descendants (deepest first over the reversed recursive
enumeration), and succeeds, leaving exactly the nodes outside the subtree. -/
theorem C2_delete_recursive (s : Store) (p : NodePath) (hwf : WFStore s)
    (hp : p ∈ pathsOf s) :
    DeleteRecursive s p =
      (⟨s.nodes.filter (fun nd => !(p.isPrefixOf nd.1))⟩, none) ∧
    (deleteSeq s p).getLast? = some p ∧
    (∀ q, q ∈ deleteSeq s p ↔ (p <+: q ∧ q ∈ pathsOf s)) ∧
    (deleteSeq s p).Pairwise (fun a b => ¬(a <+: b ∧ a ≠ b)) := by
  have hex : existsNode s p = true := existsNode_iff.mpr (Or.inr hp)
  obtain ⟨res, hres, hmem, hpair⟩ := cri_spec (descCount s p) s p hwf le_rfl hex
  have habs : childrenRecursiveInternal s p p = .ok (res.map (p ++ ·)) := by
    rw [(crHom (descCount s p) s p le_rfl).2 p, hres]
    rfl
  have hdel := (delMain (descCount s p) s p hwf le_rfl).2 (res.map (p ++ ·)) hp habs
  rw [← List.map_reverse] at hdel
  have hseq : deleteSeq s p = res.reverse.map (p ++ ·) ++ [p] := by
    unfold deleteSeq ChildrenRecursive
    rw [hres]
  refine ⟨?_, ?_, ?_, ?_⟩
  · unfold DeleteRecursive ChildrenRecursive
    rw [hres]
    exact hdel
  · rw [hseq]
    exact List.getLast?_concat _
  · intro q
    rw [hseq]
    simp only [List.mem_append, List.mem_map, List.mem_reverse, List.mem_singleton]
    constructor
    · rintro (⟨r, hr, rfl⟩ | rfl)
      · obtain ⟨-, hmem'⟩ := (hmem r).mp hr
        exact ⟨List.prefix_append p r, hmem'⟩
      · exact ⟨List.prefix_rfl, hp⟩
    · rintro ⟨hpref, hqmem⟩
      obtain ⟨r, rfl⟩ := hpref
      cases r with
      | nil => exact Or.inr (by simp)
      | cons x xs =>
        exact Or.inl ⟨x :: xs, (hmem _).mpr ⟨by simp, hqmem⟩, rfl⟩
  · rw [hseq]
    rw [List.pairwise_append]
    refine ⟨?_, by simp, ?_⟩
    · refine List.Pairwise.map _ ?_ (List.pairwise_reverse.mpr hpair)
      intro a b hba
      rintro ⟨hpref, hne⟩
      have hab : a <+: b := (List.prefix_append_right_inj p).mp hpref
      have hne' : a ≠ b := fun hEq => hne (by rw [hEq])
      exact lex_asymm hba (pref_lex hab hne')
    · intro a ha b hb
      obtain ⟨r, hr, rfl⟩ := List.mem_map.mp ha
      obtain rfl : b = p := List.mem_singleton.mp hb
      rintro ⟨hpref, -⟩
      obtain ⟨-, -⟩ := (hmem r).mp (List.mem_reverse.mp hr)
      have := hpref.length_le
      have hrne : r ≠ [] := ((hmem r).mp (List.mem_reverse.mp hr)).1
      have : 0 < r.length := List.length_pos.mpr hrne
      have hlen := hpref.length_le
      simp only [List.length_append] at hlen
      omega
  
/-- C2 witness: recursive deletion of `/a` in a three-node store. -/
theorem C2_witness :
    WFStore ⟨[(["a"], "x"), (["a", "b"], "y"), (["c"], "z")]⟩ ∧
    (["a"] : NodePath) ∈ pathsOf ⟨[(["a"], "x"), (["a", "b"], "y"), (["c"], "z")]⟩ ∧
    (DeleteRecursive ⟨[(["a"], "x"), (["a", "b"], "y"), (["c"], "z")]⟩ ["a"] =
      (⟨[(["a"], "x"), (["a", "b"], "y"), (["c"], "z")].filter
        (fun nd => !((["a"] : NodePath).isPrefixOf nd.1))⟩, none) ∧
      (∀ q, q ∈ deleteSeq ⟨[(["a"], "x"), (["a", "b"], "y"), (["c"], "z")]⟩ ["a"] ↔
        ((["a"] : NodePath) <+: q ∧
          q ∈ pathsOf ⟨[(["a"], "x"), (["a", "b"], "y"), (["c"], "z")]⟩))) :=
  ⟨by decide, by decide,
    (C2_delete_recursive ⟨[(["a"], "x"), (["a", "b"], "y"), (["c"], "z")]⟩ ["a"]
      (by decide) (by decide)).1,
    (C2_delete_recursive ⟨[(["a"], "x"), (["a", "b"], "y"), (["c"], "z")]⟩ ["a"]
      (by decide) (by decide)).2.2.1⟩

/-- Characters written for a permission mask: permission letters only,
never a separator. -/
theorem permsChars_chars (perms : Int) :
    ∀ ch ∈ permsChars perms, (permBit ch).isSome ∧ ch ≠ ':' ∧ ch ≠ ',' := by
  intro ch h
  simp only [permsChars, List.mem_append] at h
  have hch : ch = 'c' ∨ ch = 'd' ∨ ch = 'r' ∨ ch = 'w' ∨ ch = 'a' := by
    rcases h with ((((h | h) | h) | h) | h) <;> (split at h <;> simp_all)
  rcases hch with rfl | rfl | rfl | rfl | rfl <;>
    exact ⟨by decide, by decide, by decide⟩

/-- Masks over the five permission bits survive rendering and re-parsing. -/
theorem permsChars_roundtrip {perms : Int} (h0 : 0 ≤ perms) (h31 : perms ≤ 31) :
    parsePermsString (permsChars perms) = (perms, none) := by
  interval_cases perms <;> decide

/-- Three-part colon join. -/
theorem intercalate_three (x : Char) (a b c : GoStr) :
    List.intercalate [x] [a, b, c] = a ++ x :: (b ++ x :: c) := by
  simp [List.intercalate, List.intersperse]

/-- Four-part colon join. -/
theorem intercalate_four (x : Char) (a b c d : GoStr) :
    List.intercalate [x] [a, b, c, d] = a ++ x :: (b ++ x :: (c ++ x :: d)) := by
  simp [List.intercalate, List.intersperse]

/-- An entry with colon-free scheme, identity and permission characters
splits into its three parts and parses back. -/
theorem parseACLEntry_plain (scheme id pc : GoStr)
    (hs : ':' ∉ scheme) (hi : ':' ∉ id) (hpc : ':' ∉ pc) :
    parseACLEntry (scheme ++ ':' :: (id ++ ':' :: pc)) =
      some (scheme, id, parsePermsString pc) := by
  have hsplit : (scheme ++ ':' :: (id ++ ':' :: pc)).splitOn ':' = [scheme, id, pc] := by
    rw [← intercalate_three ':' scheme id pc]
    refine List.splitOn_intercalate [scheme, id, pc] ':' ?_ (by simp)
    intro l hl
    simp only [List.mem_cons, List.mem_singleton, List.not_mem_nil, or_false] at hl
    rcases hl with rfl | rfl | rfl
    · exact hs
    · exact hi
    · exact hpc
  unfold parseACLEntry
  rw [hsplit]
  unfold parseACLEntryElse
  simp

/-- A digest entry with a one-colon identity splits into four parts, whose
middle two are glued back into the identity. -/
theorem parseACLEntry_digest (u v pc : GoStr)
    (hu : ':' ∉ u) (hv : ':' ∉ v) (hpc : ':' ∉ pc) :
    parseACLEntry ("digest".toList ++ ':' :: ((u ++ ':' :: v) ++ ':' :: pc)) =
      some ("digest".toList, u ++ ':' :: v, parsePermsString pc) := by
  have hsplit : ("digest".toList ++ ':' :: ((u ++ ':' :: v) ++ ':' :: pc)).splitOn ':' =
      ["digest".toList, u, v, pc] := by
    have harr : "digest".toList ++ ':' :: ((u ++ ':' :: v) ++ ':' :: pc) =
        List.intercalate [':'] ["digest".toList, u, v, pc] := by
      rw [intercalate_four]
      simp [List.append_assoc]
    rw [harr]
    refine List.splitOn_intercalate ["digest".toList, u, v, pc] ':' ?_ (by simp)
    intro l hl
    simp only [List.mem_cons, List.mem_singleton, List.not_mem_nil, or_false] at hl
    rcases hl with rfl | rfl | rfl | rfl
    · decide
    · exact hu
    · exact hv
    · exact hpc
  unfold parseACLEntry
  rw [hsplit]
  simp

/-- A single colon splits a list at its unique occurrence. -/
theorem count_one_split {l : GoStr} (h : l.count ':' ≤ 1) (hmem : ':' ∈ l) :
    ∃ u v, l = u ++ ':' :: v ∧ ':' ∉ u ∧ ':' ∉ v := by
  induction l with
  | nil => cases hmem
  | cons c rest ih =>
    by_cases hc : c = ':'
    · subst hc
      refine ⟨[], rest, rfl, by simp, ?_⟩
      rw [List.count_cons_self] at h
      have : rest.count ':' = 0 := by omega
      exact (List.count_eq_zero).mp this
    · have hmem' : ':' ∈ rest := by
        rcases List.mem_cons.mp hmem with h' | h'
        · exact absurd h'.symm hc
        · exact h'
      have h' : rest.count ':' ≤ 1 := le_trans (List.count_le_count_cons ..) h
      obtain ⟨u, v, rfl, hu, hv⟩ := ih h' hmem'
      refine ⟨c :: u, v, rfl, ?_, hv⟩
      intro hin
      rcases List.mem_cons.mp hin with hEq | hEq
      · exact hc hEq.symm
      · exact hu hEq

/-- Each well-formed entry's rendering parses back to the entry's fields. -/
theorem aclEntry_roundtrip {a : ACL} (h : WFAclEntry a) :
    parseACLEntry (a.scheme ++ ':' :: (a.id ++ ':' :: permsChars a.perms)) =
      some (a.scheme, a.id, (a.perms, none)) := by
  obtain ⟨h0, h31, hsc, -, -, hdig, hndig⟩ := h
  have hpcc : ':' ∉ permsChars a.perms :=
    fun hcc => (permsChars_chars a.perms ':' hcc).2.1 rfl
  by_cases hidc : ':' ∈ a.id
  · by_cases hds : a.scheme = "digest".toList
    · obtain ⟨u, v, hid, hu, hv⟩ := count_one_split (hdig hds) hidc
      rw [hds, hid]
      have he := parseACLEntry_digest u v (permsChars a.perms) hu hv hpcc
      rw [permsChars_roundtrip h0 h31] at he
      exact he
    · exact absurd hidc (hndig hds)
  · have he := parseACLEntry_plain a.scheme a.id (permsChars a.perms) hsc hidc hpcc
    rw [permsChars_roundtrip h0 h31] at he
    exact he

/-- The entry loop reassembles well-formed rendered entries verbatim. -/
theorem parseACLLoop_roundtrip (acls : List ACL)
    (h : ∀ a ∈ acls, WFAclEntry a) :
    ∀ acc, parseACLLoop (aclsToString acls) acc none = some (acc ++ acls, none) := by
  induction acls with
  | nil =>
    intro acc
    simp [aclsToString, parseACLLoop]
  | cons a rest ih =>
    intro acc
    have he := aclEntry_roundtrip (h a (List.mem_cons_self a rest))
    simp only [aclsToString, List.map_cons] at *
    rw [parseACLLoop, he]
    have heta : (⟨a.perms, a.scheme, a.id⟩ : ACL) = a := rfl
    have hrest := ih (fun x hx => h x (List.mem_cons_of_mem a hx)) (acc ++ [a])
    simp [heta, hrest, List.append_assoc]

/-- C3 counterexample: the single entry (1, `ip`, `a:b`) — a non-digest
scheme whose identity contains a colon — renders as `ip:a:b:r`, which
`parseACLString` mis-splits: the permission parse fails on `b` and the
entry is dropped with an error, so the round trip does not return the
original list. -/
theorem C3_counterexample :
    parseACLString
        (List.intercalate [','] (aclsToString [⟨1, "ip".toList, "a:b".toList⟩])) =
      some ([], some "invalid ACL string specified") ∧
    parseACLString
        (List.intercalate [','] (aclsToString [⟨1, "ip".toList, "a:b".toList⟩])) ≠
      some ([⟨1, "ip".toList, "a:b".toList⟩], none) :=
  ⟨by decide, by decide⟩

/-- C3 amended: for every non-empty entry list whose entries use the five
permission bits, keep commas out of scheme and identity, colons out of the
scheme, and colons in the identity only for the digest scheme (at most
one), parsing the comma-joined `aclsToString` rendering — the form `GetACL`
returns — yields exactly the original (scheme, id, permission-mask)
triples with no error; digest identities with one colon survive the round
trip. -/
theorem C3_aclsToString_roundtrip (acls : List ACL) (hne : acls ≠ [])
    (hwf : ∀ a ∈ acls, WFAclEntry a) :
    parseACLString (List.intercalate [','] (aclsToString acls)) =
      some (acls, none) := by
  unfold parseACLString
  have hsplit : (List.intercalate [','] (aclsToString acls)).splitOn ',' =
      aclsToString acls := by
    refine List.splitOn_intercalate _ ',' ?_ ?_
    · intro l hl
      obtain ⟨a, ha, rfl⟩ := List.mem_map.mp hl
      obtain ⟨-, -, -, hcs, hci, -, -⟩ := hwf a ha
      intro hin
      simp only [List.mem_append, List.mem_cons] at hin
      rcases hin with h1 | h1 | h1 | h1 | h1
      · exact hcs h1
      · cases h1
      · exact hci h1
      · cases h1
      · exact (permsChars_chars a.perms ',' h1).2.2 rfl
    · simpa [aclsToString] using hne
  rw [hsplit]
  simpa using parseACLLoop_roundtrip acls hwf []

/-- C3 witness: a world entry and a digest entry whose identity holds one
colon round-trip through rendering and parsing. -/
theorem C3_witness :
    (([⟨31, "world".toList, "anyone".toList⟩,
        ⟨5, "digest".toList, "u:h".toList⟩] : List ACL) ≠ []) ∧
    (∀ a ∈ ([⟨31, "world".toList, "anyone".toList⟩,
        ⟨5, "digest".toList, "u:h".toList⟩] : List ACL), WFAclEntry a) ∧
    parseACLString (List.intercalate [','] (aclsToString
        [⟨31, "world".toList, "anyone".toList⟩,
          ⟨5, "digest".toList, "u:h".toList⟩])) =
      some ([⟨31, "world".toList, "anyone".toList⟩,
        ⟨5, "digest".toList, "u:h".toList⟩], none) :=
  ⟨by decide, by decide,
    C3_aclsToString_roundtrip _ (by decide) (by decide)⟩

/-- An operation trace is well nested and opens one connection. -/
theorem opTrace_wellNested (n : Nat) :
    wellNested (opTrace n) 0 = true ∧ openCount (opTrace n) = 1 := by
  constructor
  · show wellNested (.connOpen :: (List.replicate n .remote ++ [.connClose])) 0 = true
    rw [wellNested]
    simp only [beq_self_eq_true, Bool.true_and]
    induction n with
    | zero => rfl
    | succ m ih => simpa [List.replicate_succ, wellNested] using ih
  · show openCount (.connOpen :: (List.replicate n .remote ++ [.connClose])) = 1
    unfold openCount
    rw [List.countP_cons]
    simp [List.countP_append, List.countP_eq_zero]

/-- Well-nested traces concatenate. -/
theorem wellNested_append : ∀ {t1 : List ZkEvent} {d : Nat} {t2 : List ZkEvent},
    wellNested t1 d = true → wellNested t2 0 = true →
    wellNested (t1 ++ t2) d = true := by
  intro t1
  induction t1 with
  | nil =>
    intro d t2 h1 h2
    obtain rfl : d = 0 := by simpa [wellNested] using h1
    simpa using h2
  | cons e r ih =>
    intro d t2 h1 h2
    cases e <;>
      (simp only [List.cons_append, wellNested, Bool.and_eq_true] at h1 ⊢;
       exact ⟨h1.1, ih h1.2 h2⟩)

/-- Connection count adds over concatenation. -/
theorem openCount_append (t1 t2 : List ZkEvent) :
    openCount (t1 ++ t2) = openCount t1 + openCount t2 :=
  List.countP_append _ _ _

/-- The deletion loop's trace is well nested. -/
theorem deleteAllTrace_wellNested : ∀ ps (s : Store),
    wellNested (deleteAllTrace s ps) 0 = true := by
  intro ps
  induction ps with
  | nil => intro s; rfl
  | cons q rest ih =>
    intro s
    rw [deleteAllTrace]
    cases zkDelete s q with
    | ok s' => exact wellNested_append (opTrace_wellNested 1).1 (ih s')
    | error e => exact wellNested_append (opTrace_wellNested 1).1 rfl

/-- When every deletion succeeds, the loop opens one connection per path. -/
theorem deleteAllTrace_count : ∀ ps (s s' : Store),
    deleteAll s ps = (s', none) →
    openCount (deleteAllTrace s ps) = ps.length := by
  intro ps
  induction ps with
  | nil => intro s s' _; rfl
  | cons q rest ih =>
    intro s s' h
    rw [deleteAllTrace]
    rw [deleteAll] at h
    cases hzk : zkDelete s q with
    | ok s1 =>
      rw [hzk] at h
      simp only [traceSingleCall]
      rw [openCount_append, (opTrace_wellNested 1).2, ih s1 s' h]
      simp only [List.length_cons]
      omega
    | error e =>
      rw [hzk] at h
      exact absurd (congrArg Prod.snd h) (by simp)

/-- The remote-call count of the walk is one more than the number of nodes
it lists (one `Children` call per visited node). -/
theorem childrenRecRemotes_spec (n : Nat) : ∀ s p, descCount s p ≤ n →
    (∀ cs hcs L inc, childrenRecursiveLoop s p inc cs hcs = .ok L →
      childrenRecRemotesLoop s p inc cs hcs = L.length) ∧
    (∀ L inc, childrenRecursiveInternal s p inc = .ok L →
      childrenRecRemotes s p inc = 1 + L.length) := by
  induction n using Nat.strong_induction_on with
  | _ n ih =>
    intro s p hn
    have hloop : ∀ cs hcs L inc, childrenRecursiveLoop s p inc cs hcs = .ok L →
        childrenRecRemotesLoop s p inc cs hcs = L.length := by
      intro cs
      induction cs with
      | nil =>
        intro hcs L inc hL
        rw [crl_nil] at hL
        obtain rfl : ([] : List NodePath) = L := by simpa using hL
        rw [childrenRecRemotesLoop]
        rfl
      | cons c rest ihr =>
        intro hcs L inc hL
        have hmem := hcs c (List.mem_cons_self c rest)
        have hlt : descCount s (p ++ [c]) < n :=
          lt_of_lt_of_le (descCount_child_lt hmem) hn
        rw [crl_cons] at hL
        cases hsub : childrenRecursiveInternal s (p ++ [c]) (inc ++ [c]) with
        | error e =>
          rw [hsub] at hL
          simp [Bind.bind, Except.bind] at hL
        | ok sub =>
          rw [hsub] at hL
          cases htail : childrenRecursiveLoop s p inc rest
              (fun x hx => hcs x (List.mem_cons_of_mem _ hx)) with
          | error e =>
            rw [htail] at hL
            simp [Bind.bind, Except.bind] at hL
          | ok tail =>
            rw [htail] at hL
            simp only [Bind.bind, Except.bind, Except.ok.injEq] at hL
            subst hL
            rw [childrenRecRemotesLoop]
            rw [hsub]
            rw [(ih _ hlt s (p ++ [c]) le_rfl).2 sub (inc ++ [c]) hsub]
            rw [ihr (fun x hx => hcs x (List.mem_cons_of_mem _ hx)) tail inc htail]
            simp only [List.length_cons, List.length_append]
            omega
    refine ⟨hloop, ?_⟩
    intro L inc hL
    rcases hex : existsNode s p with _ | _
    · rw [cri_missing inc hex] at hL
      cases hL
    · rw [cri_found inc hex] at hL
      rw [childrenRecRemotes.eq_def, if_pos hex]
      rw [hloop _ (childArgMem s p) L inc hL]

/-- For an existing path in a well-formed store the `DeleteRecursive` trace
opens one connection for the enumeration, then one per deleted node. -/
theorem traceDeleteRecursive_count (s : Store) (p : NodePath)
    (hwf : WFStore s) (hp : p ∈ pathsOf s) :
    ∃ res, ChildrenRecursive s p = .ok res ∧
      openCount (traceDeleteRecursive s p) = res.length + 2 := by
  have hex : existsNode s p = true := existsNode_iff.mpr (Or.inr hp)
  obtain ⟨res, hres, hmem, hpair⟩ := cri_spec (descCount s p) s p hwf le_rfl hex
  have hCR : ChildrenRecursive s p = .ok res := hres
  have habs : childrenRecursiveInternal s p p = .ok (res.map (p ++ ·)) := by
    rw [(crHom (descCount s p) s p le_rfl).2 p, hres]
    rfl
  have hdel := (delMain (descCount s p) s p hwf le_rfl).2 (res.map (p ++ ·)) hp habs
  rw [← List.map_reverse] at hdel
  have hcnt := deleteAllTrace_count (res.reverse.map (fun r => p ++ r) ++ [p]) s _ hdel
  refine ⟨res, hCR, ?_⟩
  have hmatch : (match ChildrenRecursive s p with
      | .error _ => ([] : List ZkEvent)
      | .ok result => deleteAllTrace s (result.reverse.map (fun r => p ++ r) ++ [p]))
      = deleteAllTrace s (res.reverse.map (fun r => p ++ r) ++ [p]) := by
    rw [hCR]
  unfold traceDeleteRecursive
  rw [hmatch, openCount_append, hcnt]
  unfold traceChildrenRecursive
  rw [(opTrace_wellNested _).2]
  simp only [List.length_append, List.length_map, List.length_reverse,
    List.length_singleton]
  omega

/-- The `DeleteRecursive` trace never holds two connections open at once. -/
theorem traceDeleteRecursive_wellNested (s : Store) (p : NodePath) :
    wellNested (traceDeleteRecursive s p) 0 = true := by
  unfold traceDeleteRecursive
  cases hCR : ChildrenRecursive s p with
  | error e =>
    exact wellNested_append (opTrace_wellNested _).1 rfl
  | ok res =>
    exact wellNested_append (opTrace_wellNested _).1 (deleteAllTrace_wellNested _ _)

/-- Every `Create` trace is a single open/work/close block. -/
theorem traceCreate_shape (s : Store) (p : NodePath) (data : String)
    (aclstr : GoStr) (force : Bool) :
    ∃ n, traceCreate s p data aclstr force = opTrace n := by
  unfold traceCreate
  split
  · split
    · exact ⟨0, rfl⟩
    · exact ⟨0, rfl⟩
    · exact ⟨_, rfl⟩
  · exact ⟨_, rfl⟩

/-- C6 counterexample: recursively deleting the single node `/a` opens two
connections — one for the enumeration, one for the `Delete` — not one. -/
theorem C6_counterexample :
    openCount (traceDeleteRecursive ⟨[(["a"], "x")]⟩ ["a"]) = 2 ∧ 2 ≠ 1 := by
  refine ⟨?_, by decide⟩
  obtain ⟨res, hCR, hcnt⟩ :=
    traceDeleteRecursive_count ⟨[(["a"], "x")]⟩ ["a"] (by decide) (by decide)
  obtain ⟨res', hres', hmem', -⟩ :=
    cri_spec (descCount ⟨[(["a"], "x")]⟩ ["a"]) ⟨[(["a"], "x")]⟩ ["a"]
      (by decide) le_rfl (by decide)
  have h2 : Except.ok (ε := ZkErr) res = Except.ok res' := by
    rw [← hCR]
    exact hres'
  have heq : res = res' := Except.ok.inj h2
  have hnil : res' = [] := by
    refine List.eq_nil_iff_forall_not_mem.mpr ?_
    intro r hr
    obtain ⟨hne, hmemr⟩ := (hmem' r).mp hr
    have hsing : (["a"] : NodePath) ++ r ∈ [(["a"] : NodePath)] := hmemr
    rw [List.mem_singleton] at hsing
    exact hne (by simpa using hsing)
  rw [heq, hnil] at hcnt
  simpa using hcnt

/-- C6: every wrapper trace is well nested at depth 0 — a connection opens
only when none is open, every remote call runs over the open connection,
and the trace ends with the connection closed — and each single-call
operation, `ChildrenRecursive` and `Create` opens exactly one connection;
`DeleteRecursive`, however, opens one connection for the enumeration plus
one per `Delete` call — two more than the number of strict descendants —
though never more than one at a time. -/
theorem C6_connection_traces :
    (∀ n, wellNested (opTrace n) 0 = true ∧ openCount (opTrace n) = 1) ∧
    traceSingleCall = opTrace 1 ∧
    (∀ s p, traceChildrenRecursive s p = opTrace (childrenRecRemotes s p [])) ∧
    (∀ s p data aclstr force, ∃ n,
      traceCreate s p data aclstr force = opTrace n) ∧
    (∀ s p, wellNested (traceDeleteRecursive s p) 0 = true) ∧
    (∀ s p, WFStore s → p ∈ pathsOf s →
      ∃ res, ChildrenRecursive s p = .ok res ∧
        openCount (traceDeleteRecursive s p) = res.length + 2) :=
  ⟨opTrace_wellNested, rfl, fun s p => rfl, traceCreate_shape,
    traceDeleteRecursive_wellNested, traceDeleteRecursive_count⟩

/-- C6 witness: the trace accounting at the one-node store `/a`. -/
theorem C6_witness :
    WFStore ⟨[(["a"], "x")]⟩ ∧ (["a"] : NodePath) ∈ pathsOf ⟨[(["a"], "x")]⟩ ∧
    ∃ res, ChildrenRecursive ⟨[(["a"], "x")]⟩ ["a"] = .ok res ∧
      openCount (traceDeleteRecursive ⟨[(["a"], "x")]⟩ ["a"]) = res.length + 2 :=
  ⟨by decide, by decide,
    C6_connection_traces.2.2.2.2.2 ⟨[(["a"], "x")]⟩ ["a"] (by decide) (by decide)⟩
